import Mathlib

/-!
# logik: a Mastermind solver (`src/main.go`)

A shallow embedding of the solver's pure core: the code representation
(`Comb`, `gen_comb`), the grader (`grade`), the universe generator
(`gen_all_combs`), the elimination step (`processHistory` and the filtering
loop of `computer_guess`), the best-guess search (`find_best_guess`,
`split_slice`, `find_best_guess_parallel`) and the solver loop
(`getGrade`, `computer_guess`).

Conventions of the embedding.

* Go `int` is `Int`. The counters of the grader and of the search stay far
  inside the 64-bit range on every input that fits in memory; the arithmetic
  of `split_slice`, whose operand `n` is the unbounded setting `THREADS`,
  wraps around as Go's 64-bit `int` does (`wrap64`).
* The fixed-size arrays `[SIZE]int` and `[NUM_COLORS]int` are lists; the
  compile-time constants `SIZE` and `NUM_COLORS` are parameters `size` and
  `ncolors` of the functions that use them, so that the same definitions can
  be read at the source's values (6 and 6) and at the values of the worked
  examples (4 and 6).
* A run-time panic or a loop that never ends is the result `none`.
* Random draws, the arrival order of the workers' results on the channel and
  the lines typed by the user are arguments of the functions that use them.
-/

namespace Logik

/-! ## Constants of the source -/

/-- Source constant `SIZE`, the length of a code. -/
def SIZE : Nat := 6

/-- Source constant `NUM_COLORS`, the number of symbol values. -/
def NUM_COLORS : Nat := 6

/-- Source constant `FULL_SEARCH_TRESHOLD`. -/
def FULL_SEARCH_TRESHOLD : Nat := 1140

/-- Source constant `LOOP_OVER_ALL_TRESHOLD`. -/
def LOOP_OVER_ALL_TRESHOLD : Nat := 70

/-! ## Data model -/

/-- Go `type Comb struct { val [SIZE]int; cnt [NUM_COLORS]int }`. -/
structure Comb where
  val : List Int
  cnt : List Int
deriving DecidableEq, Repr

/-- Go `type ThreadRes struct { comb Comb; maxrem int }`. -/
structure ThreadRes where
  comb : Comb
  maxrem : Int
deriving DecidableEq, Repr

/-- Go `type GuessIter struct { guess Comb; right, swap int }`. -/
structure GuessIter where
  guess : Comb
  right : Int
  swap : Int
deriving DecidableEq, Repr

/-- The zero value `Comb{}`: both arrays filled with zeros. -/
def Comb.zero (size ncolors : Nat) : Comb :=
  ⟨List.replicate size 0, List.replicate ncolors 0⟩

/-! ## gen_comb -/

/-- The loop `for _, e := range val { res.cnt[e] ++ }` of `gen_comb`, on the
remaining symbols and the histogram so far. Indexing the array `cnt` outside
`[0, NUM_COLORS)` panics. -/
def gen_comb_loop (ncolors : Nat) : List Int → List Int → Option (List Int)
  | [], cnt => some cnt
  | e :: rest, cnt =>
    if 0 ≤ e ∧ e < (ncolors : Int) then
      gen_comb_loop ncolors rest (cnt.set e.toNat (cnt.getD e.toNat 0 + 1))
    else none

/-- Go `gen_comb`: the code with sequence `val` and its histogram. -/
def gen_comb (ncolors : Nat) (val : List Int) : Option Comb :=
  (gen_comb_loop ncolors val (List.replicate ncolors 0)).map (fun cnt => ⟨val, cnt⟩)

/-! ## grade -/

/-- First loop of `grade`: `for i := range NUM_COLORS { col += min(..) }`. -/
def grade_col (ncolors : Nat) (guess trgt : Comb) : Int :=
  (List.range ncolors).foldl
    (fun col i => col + min (guess.cnt.getD i 0) (trgt.cnt.getD i 0)) 0

/-- Body of the second loop of `grade` at position `i`, on `(pos, col)`. -/
def grade_step (guess trgt : Comb) (pc : Int × Int) (i : Nat) : Int × Int :=
  if guess.val.getD i 0 = trgt.val.getD i 0 then (pc.1 + 1, pc.2 - 1) else pc

/-- Go `grade(guess, trgt) (pos, col int)`. -/
def grade (size ncolors : Nat) (guess trgt : Comb) : Int × Int :=
  (List.range size).foldl (grade_step guess trgt) (0, grade_col ncolors guess trgt)

/-- The rating string printed for a grade: `strings.Repeat("x", right) +
strings.Repeat(".", swap)` (`getGrade`, `player_guess`). `strings.Repeat`
panics on a negative count. -/
def rating (right swap : Int) : Option String :=
  if right < 0 ∨ swap < 0 then none
  else some (String.mk (List.replicate right.toNat 'x' ++ List.replicate swap.toNat '.'))

/-! ## gen_all_combs -/

/-- The inner loop `for dig := range SIZE { cur[dig] ++; if cur[dig] ==
NUM_COLORS { cur[dig] = 0 } else { break } }` of `gen_all_combs`: add one to
the counter `cur`, lowest digit first, carrying while a digit wraps. -/
def next_cur (ncolors : Nat) : List Int → List Int
  | [] => []
  | d :: rest =>
    if d + 1 = (ncolors : Int) then 0 :: next_cur ncolors rest else (d + 1) :: rest

/-- The loop `for cur != max { ...; loc_combs = append(loc_combs,
gen_comb(cur)) }` of `gen_all_combs`; `fuel` bounds the number of times the
loop condition is tested, and running out of it is `none`. -/
def gen_all_combs_loop (size ncolors : Nat) : Nat → List Int → List Comb → Option (List Comb)
  | 0, _, _ => none
  | fuel + 1, cur, loc_combs =>
    if cur ≠ List.replicate size ((ncolors : Int) - 1) then
      match gen_comb ncolors (next_cur ncolors cur) with
      | none => none
      | some c =>
        gen_all_combs_loop size ncolors fuel (next_cur ncolors cur) (loc_combs ++ [c])
    else some loc_combs

/-- Go `gen_all_combs`, with `fuel` tests of the loop condition allowed. -/
def gen_all_combs (size ncolors : Nat) (fuel : Nat) : Option (List Comb) :=
  match gen_comb ncolors (List.replicate size 0) with
  | none => none
  | some c => gen_all_combs_loop size ncolors fuel (List.replicate size 0) [c]

/-! ## processHistory and the filtering loop of computer_guess -/

/-- Go `processHistory(history, comb)`. -/
def processHistory (size ncolors : Nat) : List GuessIter → Comb → Bool
  | [], _ => true
  | h :: rest, comb =>
    if (grade size ncolors h.guess comb).1 ≠ h.right
        ∨ (grade size ncolors h.guess comb).2 ≠ h.swap then false
    else processHistory size ncolors rest comb

/-- The loop of `computer_guess` that builds `new_combs` from `combs`:
`for _, c := range combs { if !processHistory(history, c) { continue };
new_combs = append(new_combs, c) }`. -/
def new_combs (size ncolors : Nat) (history : List GuessIter) (combs : List Comb) : List Comb :=
  combs.foldl
    (fun acc c => if !processHistory size ncolors history c then acc else acc ++ [c]) []

/-! ## find_best_guess -/

/-- First inner loop of the pair test of `find_best_guess`, giving
`(ab_col, ac_col)`. -/
def pair_cols (ncolors : Nat) (a b c : Comb) : Int × Int :=
  (List.range ncolors).foldl
    (fun (p : Int × Int) i =>
      (p.1 + min (a.cnt.getD i 0) (b.cnt.getD i 0),
       p.2 + min (a.cnt.getD i 0) (c.cnt.getD i 0))) (0, 0)

/-- Body of the second inner loop of the pair test at position `i`, on
`(pos_score, ab_col, ac_col)`. -/
def pair_step (a b c : Comb) (st : Int × Int × Int) (i : Nat) : Int × Int × Int :=
  let st1 : Int × Int × Int :=
    if a.val.getD i 0 = b.val.getD i 0 then (st.1 + 1, st.2.1 - 1, st.2.2) else st
  if a.val.getD i 0 = c.val.getD i 0 then (st1.1 - 1, st1.2.1, st1.2.2 - 1) else st1

/-- The pair test of `find_best_guess` for the guess `a` and the pair `b, c`:
true when `rem ++` is reached, false when the `continue` is taken. -/
def pair_counted (size ncolors : Nat) (a b c : Comb) : Bool :=
  let st := (List.range size).foldl (pair_step a b c)
    (0, (pair_cols ncolors a b c).1, (pair_cols ncolors a b c).2)
  !(st.1 == 0 && st.2.1 == st.2.2)

/-- The counter `rem` that `find_best_guess` computes for the guess `a`
against the scoring pool `loc_combs` (the two loops over `bi` and `ci`). -/
def rem_count (size ncolors : Nat) (a : Comb) (loc_combs : List Comb) : Int :=
  (List.range (loc_combs.length - 1)).foldl
    (fun rem bi =>
      (List.range (loc_combs.length - 1 - bi)).foldl
        (fun rem ci =>
          if pair_counted size ncolors a
              (loc_combs.getD bi (Comb.zero size ncolors))
              (loc_combs.getD (ci + bi + 1) (Comb.zero size ncolors))
          then rem + 1 else rem)
        rem)
    0

/-- Body of the outer loop of `find_best_guess`, on `(best_guess, best_rem)`. -/
def best_step (size ncolors : Nat) (loc_combs : List Comb) (st : Comb × Int) (a : Comb) :
    Comb × Int :=
  if rem_count size ncolors a loc_combs > st.2 then (a, rem_count size ncolors a loc_combs)
  else st

/-- Go `find_best_guess(loopover_combs, loc_combs, collect)`; the result is
the value sent on `collect`. -/
def find_best_guess (size ncolors : Nat) (loopover_combs loc_combs : List Comb) : ThreadRes :=
  let st := loopover_combs.foldl (best_step size ncolors loc_combs) (Comb.zero size ncolors, 0)
  ⟨st.1, st.2⟩

/-! ## split_slice -/

/-- The largest value of Go's `int`, 64 bits wide: `2^63 - 1`. -/
def MaxInt64 : Int := 9223372036854775807

/-- Wrap-around of Go's `int`: the value that an operation with exact result
`x` leaves, which is `x` reduced modulo `2^64` into `[-2^63, 2^63)`. -/
def wrap64 (x : Int) : Int :=
  (x + 9223372036854775808) % 18446744073709551616 - 9223372036854775808

/-- An `int` result computed in `split_slice` on a slice of `len` elements:
the exact result wrapped around. `len(s)` is itself an `int`, so a slice has
at most `MaxInt64` elements; a longer list stands for no slice, and for it
the result is left as it is. -/
def int_result (len : Nat) (x : Int) : Int :=
  if (len : Int) ≤ MaxInt64 then wrap64 x else x

/-- The loop `for i := 0; i < len(s); i += chunkSize` of `split_slice`.
Slicing `s[i:stop]` with `stop < i` panics; with `chunkSize = 0` the loop
never ends, which the exhausted `fuel` reports as `none`. -/
def split_slice_loop {α : Type} (s : List α) (chunkSize : Int) :
    Nat → Int → List (List α) → Option (List (List α))
  | 0, _, _ => none
  | fuel + 1, i, divided =>
    if i < (s.length : Int) then
      let stop : Int :=
        if int_result s.length (i + chunkSize) > (s.length : Int) then (s.length : Int)
        else int_result s.length (i + chunkSize)
      if i < 0 ∨ stop < i then none
      else
        split_slice_loop s chunkSize fuel (int_result s.length (i + chunkSize))
          (divided ++ [(s.drop i.toNat).take (stop - i).toNat])
    else some divided

/-- Go `split_slice(s, n)`. Dividing by `n = 0` panics. The chunk size is
`(len(s) + n - 1) / n` in `int` arithmetic: the sum and the difference wrap
around, the division truncates. The loop variable grows by `chunkSize` each
turn, so when the loop ends at all its condition is tested at most
`len(s) + 1` times, the fuel given here. -/
def split_slice {α : Type} (s : List α) (n : Int) : Option (List (List α)) :=
  if n = 0 then none
  else
    split_slice_loop s
      (int_result s.length
        ((int_result s.length (int_result s.length ((s.length : Int) + n) - 1)).tdiv n))
      (s.length + 1) 0 []

/-! ## find_best_guess_parallel -/

/-- Body of the reduction loop of `find_best_guess_parallel`, on
`(res, maxrem)`. -/
def reduce_step (st : Comb × Int) (tres : ThreadRes) : Comb × Int :=
  if tres.maxrem > st.2 then (tres.comb, tres.maxrem) else st

/-- Go `find_best_guess_parallel(loopover, loc_combs)`, with the global
`THREADS` as a parameter. A nil `loopover` is `none`. The workers run
concurrently and send on an unbuffered channel; `order` lists the workers
(by chunk index) in the order in which their sends are received, and the
collection loop takes the first `THREADS` of them. Fewer than `THREADS`
results would block the loop forever (`none`). -/
def find_best_guess_parallel (size ncolors : Nat) (THREADS : Int)
    (loopover : Option (List Comb)) (loc_combs : List Comb) (order : List Nat) : Option Comb :=
  match split_slice loc_combs THREADS with
  | none => none
  | some split0 =>
    match (match loopover with
           | some l => split_slice l THREADS
           | none => some split0) with
    | none => none
    | some split =>
      if (split.length : Int) < THREADS then
        match loopover with
        | some l => some (find_best_guess size ncolors l loc_combs).comb
        | none => some (find_best_guess size ncolors loc_combs loc_combs).comb
      else
        let posted := split.map (fun chunk => find_best_guess size ncolors chunk loc_combs)
        let best_guesses := (order.filterMap (fun w => posted[w]?)).take THREADS.toNat
        if (best_guesses.length : Int) < THREADS then none
        else some (best_guesses.foldl reduce_step (Comb.zero size ncolors, 0)).1

/-! ## getGrade and computer_guess -/

/-- Source variable `CHARS = strings.Split("ABCDEF", "")`, the letter of each
symbol value. -/
def CHARS : List Char := ['A', 'B', 'C', 'D', 'E', 'F']

/-- Source variable `COLORS`: the six colour codes of the go-color package,
here by their names. -/
def COLORS : List String := ["Red", "Green", "Blue", "Yellow", "Purple", "Cyan"]

/-- The loop `for _, c := range guess.val { fmt.Print(color.Ize(COLORS[c],
CHARS[c])) }` of `getGrade`: the letters printed, or a panic when a symbol
indexes outside one of the two tables. -/
def print_code (val : List Int) : Option (List Char) :=
  if val.all (fun c => decide (0 ≤ c ∧ c < (COLORS.length : Int) ∧ c < (CHARS.length : Int)))
  then some (val.map (fun c => CHARS.getD c.toNat ' '))
  else none

/-- Go `getGrade(guess, trgt...)`. The letters of the guess are printed
first. With a target the grade is computed and printed, and `strings.Repeat`
panics on a negative count; without one the rating is read from a typed
`line`, counting its `x` and `.` characters. -/
def getGrade (size ncolors : Nat) (guess : Comb) (trgt : Option Comb) (line : List Char) :
    Option (Int × Int) :=
  match print_code guess.val with
  | none => none
  | some _ =>
    match trgt with
    | some t =>
      match rating (grade size ncolors guess t).1 (grade size ncolors guess t).2 with
      | none => none
      | some _ => some (grade size ncolors guess t)
    | none => some ((line.count 'x' : Int), (line.count '.' : Int))

/-- The guess of one round of `computer_guess`, from the candidate list
`combs`: `raw` is the value drawn by `rand.Intn(len(combs))`, taken modulo
the length, and `order` the arrival order of the workers' results if the
search runs. -/
def pick_guess (size ncolors : Nat) (THREADS : Int) (all_combs combs : List Comb)
    (raw : Nat) (order : List Nat) : Option Comb :=
  if combs.length = 1 then some (combs.getD 0 (Comb.zero size ncolors))
  else if combs.length < LOOP_OVER_ALL_TRESHOLD then
    find_best_guess_parallel size ncolors THREADS (some all_combs) combs order
  else if combs.length < FULL_SEARCH_TRESHOLD then
    find_best_guess_parallel size ncolors THREADS none combs order
  else some (combs.getD (raw % combs.length) (Comb.zero size ncolors))

/-- The loop `for { ... }` of `computer_guess`, on the state `combs`,
`history`, `attempt`. The oracles give, for each attempt, the random draw
(`rnd`), the arrival order of the workers' results (`orders`) and the line
typed by the user when `auto` is false (`lines`). The result is `true` with
the final history when the loop ends with "solved", `false` when it ends with
an empty candidate list; `fuel` bounds the number of rounds. -/
def computer_guess_loop (size ncolors : Nat) (THREADS : Int) (auto : Bool)
    (all_combs : List Comb) (solution : Comb)
    (rnd : Nat → Nat) (orders : Nat → List Nat) (lines : Nat → List Char) :
    Nat → List Comb → List GuessIter → Nat → Option (Bool × List GuessIter)
  | 0, _, _, _ => none
  | fuel + 1, combs, history, attempt =>
    if combs.length = 0 then some (false, history)
    else
      match pick_guess size ncolors THREADS all_combs combs (rnd attempt) (orders attempt) with
      | none => none
      | some guess =>
        match getGrade size ncolors guess (if auto then some solution else none)
            (lines attempt) with
        | none => none
        | some rs =>
          if rs.1 = (size : Int) then some (true, history ++ [⟨guess, rs.1, rs.2⟩])
          else
            computer_guess_loop size ncolors THREADS auto all_combs solution rnd orders lines
              fuel (new_combs size ncolors (history ++ [⟨guess, rs.1, rs.2⟩]) combs)
              (history ++ [⟨guess, rs.1, rs.2⟩]) (attempt + 1)

/-- Go `computer_guess(auto)`: `solution_raw` holds the symbols drawn for the
solution, `gen_fuel` is the fuel of the two calls of `gen_all_combs`. -/
def computer_guess (size ncolors : Nat) (THREADS : Int) (auto : Bool) (gen_fuel : Nat)
    (solution_raw : List Int) (rnd : Nat → Nat) (orders : Nat → List Nat)
    (lines : Nat → List Char) (fuel : Nat) : Option (Bool × List GuessIter) :=
  match gen_all_combs size ncolors gen_fuel, gen_all_combs size ncolors gen_fuel,
      gen_comb ncolors solution_raw with
  | some all_combs, some combs, some solution =>
    computer_guess_loop size ncolors THREADS auto all_combs solution rnd orders lines
      fuel combs [] 1
  | _, _, _ => none

/-! ## Notions used to state and prove the properties -/

/-- The letters of a sequence, as `getGrade` prints them (`CHARS[c]` for each
symbol `c`). -/
def show_code (val : List Int) : String :=
  String.mk (val.map (fun c => CHARS.getD c.toNat ' '))

/-- The sequence written `AABD` in the alphabet `CHARS`. -/
def AABD : List Int := [0, 0, 1, 3]

/-- The sequence written `ADBC` in the alphabet `CHARS`. -/
def ADBC : List Int := [0, 3, 1, 2]

/-- Grade of the codes that `gen_comb` builds from two sequences: the guess
`vg` against the target `vt`. -/
def grade_seq (size ncolors : Nat) (vg vt : List Int) : Option (Int × Int) :=
  match gen_comb ncolors vg, gen_comb ncolors vt with
  | some g, some t => some (grade size ncolors g t)
  | _, _ => none


/-- Number of positions `i < n` at which the two sequences hold the same
symbol (reading past the end gives the array default 0). -/
def posMatches (n : Nat) (va vb : List Int) : Nat :=
  (List.range n).countP (fun i => decide (va.getD i 0 = vb.getD i 0))

/-- Positional matches of two sequences, by recursion on both. -/
def zipMatches : List Int → List Int → Nat
  | x :: xs, y :: ys => (if x = y then 1 else 0) + zipMatches xs ys
  | _, _ => 0

/-- Total colour overlap of two sequences over the symbols below `n`. -/
def overlap (n : Nat) (va vb : List Int) : Nat :=
  ∑ i in Finset.range n, min (va.count (i : Int)) (vb.count (i : Int))

/-- A sequence is in range when all its symbols lie in `[0, ncolors)`. -/
def InRange (ncolors : Nat) (val : List Int) : Prop :=
  ∀ e ∈ val, 0 ≤ e ∧ e < (ncolors : Int)

instance (ncolors : Nat) (val : List Int) : Decidable (InRange ncolors val) := by
  unfold InRange; infer_instance

/-- The `size` lowest digits of `k` in base `ncolors`, lowest first: the
value of the counter `cur` of `gen_all_combs` after `k` increments. -/
def digits (ncolors : Nat) : Nat → Nat → List Int
  | 0, _ => []
  | s + 1, k => ((k % ncolors : Nat) : Int) :: digits ncolors s (k / ncolors)

/-- The number that a counter `cur` stands for, lowest digit first. -/
def fromDigits (ncolors : Nat) : List Int → Nat
  | [] => 0
  | d :: rest => d.toNat + ncolors * fromDigits ncolors rest

/-- The code of a sequence: the sequence with the histogram of its symbols. -/
def mkComb (ncolors : Nat) (val : List Int) : Comb :=
  ⟨val, (List.range ncolors).map (fun (i : Nat) => ((val.count (i : Int) : Nat) : Int))⟩

/-- The distinguished-pair count of the spec, for a guess `a` and a pool: the
number of pairs of pool entries, the first standing before the second, whose
grades against `a` differ. -/
def distinguished (size ncolors : Nat) (a : Comb) : List Comb → Nat
  | [] => 0
  | b :: rest =>
    rest.countP (fun c => decide (grade size ncolors a b ≠ grade size ncolors a c))
      + distinguished size ncolors a rest

/-- A pool of three codes over two symbols, of length two. -/
def pool3 : List Comb := [⟨[0, 0], [2, 0]⟩, ⟨[1, 0], [1, 1]⟩, ⟨[0, 1], [1, 1]⟩]

/-- The number of index pairs `i < j` of the pool whose entries the guess `a`
grades differently. -/
def distinguished_idx (size ncolors : Nat) (a : Comb) (pool : List Comb) : Nat :=
  ((List.range pool.length).map (fun i =>
    (List.range pool.length).countP (fun j =>
      decide (i < j ∧ grade size ncolors a (pool.getD i (Comb.zero size ncolors))
        ≠ grade size ncolors a (pool.getD j (Comb.zero size ncolors)))))).sum

/-- A code built by `gen_comb` from a sequence of length `size`. -/
def Built (size ncolors : Nat) (c : Comb) : Prop :=
  c.val.length = size ∧ gen_comb ncolors c.val = some c

/-- One step of a "first strict maximum" loop: the state `(res, max)` is
replaced by `(g x, f x)` when the score `f x` exceeds `max`. Both the outer
loop of `find_best_guess` and the reduction of `find_best_guess_parallel`
have this shape. -/
def argmax_step {α : Type} (f : α → Int) (g : α → Comb) (st : Comb × Int) (x : α) :
    Comb × Int :=
  if f x > st.2 then (g x, f x) else st

/-- The two codes of length one over two symbols. -/
def pool2 : List Comb := [⟨[0], [1, 0]⟩, ⟨[1], [0, 1]⟩]

/-- The results that the collection loop of `find_best_guess_parallel`
gathers: what the workers of the chunks `split` post, in the arrival order
`order`, cut after `THREADS` results. -/
def collected (size ncolors : Nat) (THREADS : Int) (loc_combs : List Comb)
    (split : List (List Comb)) (order : List Nat) : List ThreadRes :=
  (order.filterMap (fun w =>
    (split.map (fun chunk => find_best_guess size ncolors chunk loc_combs))[w]?)).take
      THREADS.toNat

/-- The code `res` is a best guess of the pool against the scoring pool `P`:
the placeholder when no code of the pool has a positive count, and otherwise
a code of the pool with a positive count that no code of the pool exceeds. -/
def BestOf (size ncolors : Nat) (pool P : List Comb) (res : Comb) : Prop :=
  (res = Comb.zero size ncolors ∧ ∀ a ∈ pool, rem_count size ncolors a P ≤ 0)
    ∨ (res ∈ pool ∧ 0 < rem_count size ncolors res P
        ∧ ∀ a ∈ pool, rem_count size ncolors a P ≤ rem_count size ncolors res P)

/-- No two chunks whose posted score is the greatest post different codes. -/
def TieFree (size ncolors : Nat) (loc_combs : List Comb) (split : List (List Comb)) : Prop :=
  ∀ c1 ∈ split, ∀ c2 ∈ split,
    (∀ c ∈ split, (find_best_guess size ncolors c loc_combs).maxrem
        ≤ (find_best_guess size ncolors c1 loc_combs).maxrem) →
    (∀ c ∈ split, (find_best_guess size ncolors c loc_combs).maxrem
        ≤ (find_best_guess size ncolors c2 loc_combs).maxrem) →
    (find_best_guess size ncolors c1 loc_combs).comb
      = (find_best_guess size ncolors c2 loc_combs).comb

/-! ## Facts on the histogram and the two loops of the grader -/

theorem gen_comb_loop_spec (ncolors : Nat) (val : List Int) :
    ∀ cnt : List Int, InRange ncolors val → cnt.length = ncolors →
      ∃ cnt2, gen_comb_loop ncolors val cnt = some cnt2 ∧ cnt2.length = ncolors ∧
        ∀ i : Nat, cnt2.getD i 0 = cnt.getD i 0 + (val.count (i : Int) : Int) := by
  induction val with
  | nil => intro cnt _ hl; exact ⟨cnt, rfl, hl, by simp⟩
  | cons e rest ih =>
    intro cnt hr hl
    have he : 0 ≤ e ∧ e < (ncolors : Int) := hr e (List.mem_cons_self _ _)
    have hrest : InRange ncolors rest := fun x hx => hr x (List.mem_cons_of_mem _ hx)
    obtain ⟨cnt2, h1, h2, h3⟩ :=
      ih (cnt.set e.toNat (cnt.getD e.toNat 0 + 1)) hrest (by simpa using hl)
    refine ⟨cnt2, ?_, h2, ?_⟩
    · simp only [gen_comb_loop, he, and_self, if_true]; exact h1
    · intro i
      rw [h3 i, List.count_cons]
      have hlt : e.toNat < cnt.length := by omega
      by_cases hi : (i : Int) = e
      · have : e.toNat = i := by omega
        subst this
        simp [List.getD_eq_getElem?_getD, List.getElem?_set, hlt, hi]
        omega
      · have : e.toNat ≠ i := by omega
        have hi2 : ¬ e = (i : Int) := fun h => hi h.symm
        simp [List.getD_eq_getElem?_getD, List.getElem?_set, this, hi2]

theorem gen_comb_loop_inRange (ncolors : Nat) (val : List Int) :
    ∀ cnt cnt2 : List Int, gen_comb_loop ncolors val cnt = some cnt2 → InRange ncolors val := by
  induction val with
  | nil => intro _ _ _ e he; simp at he
  | cons e rest ih =>
    intro cnt cnt2 h
    by_cases he : 0 ≤ e ∧ e < (ncolors : Int)
    · simp only [gen_comb_loop, he, and_self, if_true] at h
      intro x hx
      rcases List.mem_cons.mp hx with rfl | hx
      · exact he
      · exact ih _ _ h x hx
    · simp [gen_comb_loop, he] at h

/-- What `gen_comb` builds from an in-range sequence. -/
theorem gen_comb_spec (ncolors : Nat) (val : List Int) (hr : InRange ncolors val) :
    ∃ c, gen_comb ncolors val = some c ∧ c.val = val ∧ c.cnt.length = ncolors ∧
      ∀ i : Nat, c.cnt.getD i 0 = (val.count (i : Int) : Int) := by
  obtain ⟨cnt2, h1, h2, h3⟩ :=
    gen_comb_loop_spec ncolors val (List.replicate ncolors 0) hr (by simp)
  refine ⟨⟨val, cnt2⟩, by simp [gen_comb, h1], rfl, h2, ?_⟩
  intro i
  rw [h3 i]
  simp [List.getD_eq_getElem?_getD, List.getElem?_replicate]
  split <;> rfl

/-- Inversion of `gen_comb`: a built code comes from an in-range sequence. -/
theorem gen_comb_some (ncolors : Nat) (val : List Int) (c : Comb)
    (h : gen_comb ncolors val = some c) :
    InRange ncolors val ∧ c.val = val ∧ c.cnt.length = ncolors ∧
      ∀ i : Nat, c.cnt.getD i 0 = (val.count (i : Int) : Int) := by
  have hr : InRange ncolors val := by
    unfold gen_comb at h
    cases hc : gen_comb_loop ncolors val (List.replicate ncolors 0) with
    | none => simp [hc] at h
    | some cnt2 => exact gen_comb_loop_inRange ncolors val _ _ hc
  obtain ⟨c2, h1, h2, h3, h4⟩ := gen_comb_spec ncolors val hr
  rw [h] at h1
  cases h1
  exact ⟨hr, h2, h3, h4⟩

theorem grade_col_eq_sum (ncolors : Nat) (a b : Comb) :
    grade_col ncolors a b
      = ∑ i in Finset.range ncolors, min (a.cnt.getD i 0) (b.cnt.getD i 0) := by
  unfold grade_col
  induction ncolors with
  | zero => simp
  | succ n ih => rw [List.range_succ, List.foldl_append, ih, Finset.sum_range_succ]; rfl

theorem posMatches_succ (n : Nat) (va vb : List Int) :
    posMatches (n + 1) va vb
      = posMatches n va vb + if va.getD n 0 = vb.getD n 0 then 1 else 0 := by
  unfold posMatches
  rw [List.range_succ, List.countP_append]
  by_cases h : va.getD n 0 = vb.getD n 0 <;> simp [List.countP_cons, h]

theorem grade_fold (a b : Comb) (n : Nat) (init : Int × Int) :
    (List.range n).foldl (grade_step a b) init
      = (init.1 + (posMatches n a.val b.val : Int), init.2 - (posMatches n a.val b.val : Int)) := by
  induction n with
  | zero => simp [posMatches]
  | succ n ih =>
    rw [List.range_succ, List.foldl_append, ih, posMatches_succ]
    simp only [List.foldl_cons, List.foldl_nil, grade_step]
    by_cases h : a.val.getD n 0 = b.val.getD n 0
    · simp only [h, if_true]
      ext
      · push_cast; ring
      · push_cast; ring
    · simp only [h, if_false]
      simp

/-- Closed form of `grade`: the positional matches, and the histogram overlap
less one per positional match. -/
theorem grade_eq (size ncolors : Nat) (a b : Comb) :
    grade size ncolors a b
      = ((posMatches size a.val b.val : Int),
         (∑ i in Finset.range ncolors, min (a.cnt.getD i 0) (b.cnt.getD i 0))
           - (posMatches size a.val b.val : Int)) := by
  unfold grade
  rw [grade_fold, grade_col_eq_sum]
  simp

theorem posMatches_eq_zip (va : List Int) :
    ∀ (vb : List Int) (n : Nat), va.length = n → vb.length = n →
      posMatches n va vb = zipMatches va vb := by
  induction va with
  | nil => intro vb n h _; subst h; simp [posMatches, zipMatches]
  | cons x xs ih =>
    intro vb n ha hb
    cases vb with
    | nil => simp at hb; subst hb; simp at ha
    | cons y ys =>
      cases n with
      | zero => simp at ha
      | succ n =>
        have h := ih ys n (by simpa using ha) (by simpa using hb)
        unfold posMatches at h ⊢
        rw [List.range_succ_eq_map, List.countP_cons, List.countP_map, zipMatches, ← h]
        simp only [List.getD_cons_zero, Function.comp_def, List.getD_cons_succ]
        by_cases hxy : x = y <;> simp [hxy, add_comm]

theorem posMatches_le (n : Nat) (va vb : List Int) : posMatches n va vb ≤ n := by
  unfold posMatches
  calc List.countP _ (List.range n) ≤ (List.range n).length := List.countP_le_length _
    _ = n := List.length_range n

theorem posMatches_self (n : Nat) (va : List Int) : posMatches n va va = n := by
  unfold posMatches
  simp

theorem sum_indicator (n : Nat) (x : Int) :
    (∑ i in Finset.range n, if x = (i : Int) then 1 else 0)
      = if 0 ≤ x ∧ x < (n : Int) then 1 else 0 := by
  by_cases h : 0 ≤ x ∧ x < (n : Int)
  · rw [if_pos h]
    have : ∀ i ∈ Finset.range n,
        (if x = (i : Int) then 1 else 0) = if x.toNat = i then 1 else 0 := by
      intro i _
      have : x = (i : Int) ↔ x.toNat = i := by omega
      simp [this]
    rw [Finset.sum_congr rfl this, Finset.sum_ite_eq]
    have : x.toNat ∈ Finset.range n := by simp; omega
    simp [this]
  · rw [if_neg h]
    apply Finset.sum_eq_zero
    intro i hi
    have : ¬ x = (i : Int) := by
      have := Finset.mem_range.mp hi
      omega
    simp [this]

theorem count_cons_int (i x : Int) (xs : List Int) :
    (x :: xs).count i = xs.count i + if x = i then 1 else 0 := by
  rw [List.count_cons]
  simp

theorem sum_count_le_length (n : Nat) (va : List Int) :
    (∑ i in Finset.range n, va.count (i : Int)) ≤ va.length := by
  induction va with
  | nil => simp
  | cons x xs ih =>
    simp only [count_cons_int, Finset.sum_add_distrib, sum_indicator, List.length_cons]
    split <;> omega

theorem sum_count_eq_length (n : Nat) (va : List Int) (hr : InRange n va) :
    (∑ i in Finset.range n, va.count (i : Int)) = va.length := by
  induction va with
  | nil => simp
  | cons x xs ih =>
    have hx : 0 ≤ x ∧ x < (n : Int) := hr x (List.mem_cons_self _ _)
    have hxs : InRange n xs := fun e he => hr e (List.mem_cons_of_mem _ he)
    simp only [count_cons_int, Finset.sum_add_distrib, sum_indicator, List.length_cons,
      if_pos hx, ih hxs]

theorem overlap_le_length (n : Nat) (va vb : List Int) : overlap n va vb ≤ va.length := by
  refine le_trans ?_ (sum_count_le_length n va)
  exact Finset.sum_le_sum (fun i _ => min_le_left _ _)

theorem overlap_self (n : Nat) (va : List Int) (hr : InRange n va) :
    overlap n va va = va.length := by
  unfold overlap
  simp only [min_self]
  exact sum_count_eq_length n va hr

/-- The positional matches never exceed the colour overlap: every matching
position holds a symbol that both histograms count. -/
theorem zipMatches_le_overlap (n : Nat) (va : List Int) :
    ∀ vb : List Int, InRange n va → zipMatches va vb ≤ overlap n va vb := by
  induction va with
  | nil => intro vb _; simp [zipMatches]
  | cons x xs ih =>
    intro vb hr
    have hx : 0 ≤ x ∧ x < (n : Int) := hr x (List.mem_cons_self _ _)
    have hxs : InRange n xs := fun e he => hr e (List.mem_cons_of_mem _ he)
    cases vb with
    | nil => simp [zipMatches]
    | cons y ys =>
      have h := ih ys hxs
      by_cases hxy : x = y
      · subst hxy
        have : overlap n (x :: xs) (x :: ys) = overlap n xs ys + 1 := by
          unfold overlap
          simp only [count_cons_int, Nat.add_min_add_right, Finset.sum_add_distrib,
            sum_indicator, if_pos hx]
        rw [this]
        simp only [zipMatches, if_true]
        omega
      · have : overlap n xs ys ≤ overlap n (x :: xs) (y :: ys) := by
          unfold overlap
          apply Finset.sum_le_sum
          intro i _
          simp only [count_cons_int]
          exact min_le_min (Nat.le_add_right _ _) (Nat.le_add_right _ _)
        simp only [zipMatches, if_neg hxy]
        omega

/-- The histogram overlap of two built codes is the overlap of their
sequences. -/
theorem cnt_overlap (ncolors : Nat) (a b : Comb) (va vb : List Int)
    (ha : ∀ i : Nat, a.cnt.getD i 0 = (va.count (i : Int) : Int))
    (hb : ∀ i : Nat, b.cnt.getD i 0 = (vb.count (i : Int) : Int)) :
    (∑ i in Finset.range ncolors, min (a.cnt.getD i 0) (b.cnt.getD i 0))
      = (overlap ncolors va vb : Int) := by
  unfold overlap
  push_cast
  exact Finset.sum_congr rfl (fun i _ => by rw [ha i, hb i])

/-! ## The grader: claims C1 to C6 -/

theorem show_code_examples : show_code AABD = "AABD" ∧ show_code ADBC = "ADBC" := by
  decide

/-- C1: for every code `a` built by `gen_comb` from a length-SIZE sequence
whose symbols all lie in `[0, NUM_COLORS)`, `grade(a, a)` returns `(SIZE, 0)`. -/
theorem grade_self (size ncolors : Nat) (val : List Int) (hlen : val.length = size)
    (hr : ∀ e ∈ val, 0 ≤ e ∧ e < (ncolors : Int)) :
    ∃ a, gen_comb ncolors val = some a ∧ grade size ncolors a a = ((size : Int), 0) := by
  obtain ⟨a, h1, h2, _, h4⟩ := gen_comb_spec ncolors val hr
  refine ⟨a, h1, ?_⟩
  rw [grade_eq, cnt_overlap ncolors a a val val h4 h4, posMatches_self, overlap_self ncolors val hr,
    hlen]
  simp

theorem grade_self_witness :
    ∃ a, gen_comb 6 [0, 3, 1, 2, 5, 5] = some a ∧ grade 6 6 a a = (((6 : Nat) : Int), 0) :=
  grade_self 6 6 [0, 3, 1, 2, 5, 5] (by decide) (by decide)

/-- C2: for every two codes `a` and `b` built by `gen_comb` from in-range
sequences of length SIZE, the pair `(exact, color)` returned by `grade(a, b)`
satisfies `exact + color <= SIZE`. -/
theorem grade_sum_le (size ncolors : Nat) (va vb : List Int) (a b : Comb)
    (hla : va.length = size) (hlb : vb.length = size)
    (ha : gen_comb ncolors va = some a) (hb : gen_comb ncolors vb = some b) :
    (grade size ncolors a b).1 + (grade size ncolors a b).2 ≤ (size : Int) := by
  obtain ⟨_, _, _, ha4⟩ := gen_comb_some ncolors va a ha
  obtain ⟨_, _, _, hb4⟩ := gen_comb_some ncolors vb b hb
  rw [grade_eq, cnt_overlap ncolors a b va vb ha4 hb4]
  have := overlap_le_length ncolors va vb
  simp only [add_sub_cancel]
  omega

theorem grade_sum_le_witness :
    (grade 4 6 ⟨[0, 0, 1, 3], [2, 1, 0, 1, 0, 0]⟩ ⟨[0, 3, 1, 2], [1, 1, 1, 1, 0, 0]⟩).1
      + (grade 4 6 ⟨[0, 0, 1, 3], [2, 1, 0, 1, 0, 0]⟩ ⟨[0, 3, 1, 2], [1, 1, 1, 1, 0, 0]⟩).2
      ≤ ((4 : Nat) : Int) :=
  grade_sum_le 4 6 [0, 0, 1, 3] [0, 3, 1, 2] _ _ (by decide) (by decide) (by decide) (by decide)

/-- C3: for every two codes `a` and `b` built by `gen_comb` from in-range
sequences of length SIZE, both components of `grade(a, b)` are non-negative
and `exact <= SIZE`; the colour count, which is the total colour overlap less
one per positional match, never goes below zero. -/
theorem grade_nonneg (size ncolors : Nat) (va vb : List Int) (a b : Comb)
    (hla : va.length = size) (hlb : vb.length = size)
    (ha : gen_comb ncolors va = some a) (hb : gen_comb ncolors vb = some b) :
    0 ≤ (grade size ncolors a b).1 ∧ 0 ≤ (grade size ncolors a b).2
      ∧ (grade size ncolors a b).1 ≤ (size : Int)
      ∧ (grade size ncolors a b).2
          = (overlap ncolors va vb : Int) - (posMatches size va vb : Int) := by
  obtain ⟨hra, hva, _, ha4⟩ := gen_comb_some ncolors va a ha
  obtain ⟨_, hvb, _, hb4⟩ := gen_comb_some ncolors vb b hb
  rw [grade_eq, cnt_overlap ncolors a b va vb ha4 hb4, hva, hvb]
  have h1 := posMatches_le size va vb
  have h2 := posMatches_eq_zip va vb size hla hlb
  have h3 := zipMatches_le_overlap ncolors va vb hra
  refine ⟨?_, ?_, ?_, rfl⟩ <;> simp only <;> omega

theorem grade_nonneg_witness :
    0 ≤ (grade 4 6 ⟨[0, 0, 1, 3], [2, 1, 0, 1, 0, 0]⟩ ⟨[0, 3, 1, 2], [1, 1, 1, 1, 0, 0]⟩).1
      ∧ 0 ≤ (grade 4 6 ⟨[0, 0, 1, 3], [2, 1, 0, 1, 0, 0]⟩ ⟨[0, 3, 1, 2], [1, 1, 1, 1, 0, 0]⟩).2
      ∧ (grade 4 6 ⟨[0, 0, 1, 3], [2, 1, 0, 1, 0, 0]⟩ ⟨[0, 3, 1, 2], [1, 1, 1, 1, 0, 0]⟩).1
          ≤ ((4 : Nat) : Int)
      ∧ (grade 4 6 ⟨[0, 0, 1, 3], [2, 1, 0, 1, 0, 0]⟩ ⟨[0, 3, 1, 2], [1, 1, 1, 1, 0, 0]⟩).2
          = (overlap 6 [0, 0, 1, 3] [0, 3, 1, 2] : Int) - (posMatches 4 [0, 0, 1, 3] [0, 3, 1, 2] : Int) :=
  grade_nonneg 4 6 [0, 0, 1, 3] [0, 3, 1, 2] _ _ (by decide) (by decide) (by decide) (by decide)

/-- C4: grading is symmetric in its arguments: `grade(a, b) = grade(b, a)`,
the same exact count and the same colour count, for every two codes (those
built by `gen_comb` among them). -/
theorem grade_symm (size ncolors : Nat) (a b : Comb) :
    grade size ncolors a b = grade size ncolors b a := by
  have h1 : grade_step a b = grade_step b a := by
    funext pc i
    simp only [grade_step, eq_comm]
  have h2 : grade_col ncolors a b = grade_col ncolors b a := by
    simp only [grade_col, min_comm]
  unfold grade
  rw [h1, h2]

/-- C5, as the spec states it, fails: with SIZE = 4 and NUM_COLORS = 6 the
guess AABD graded against the secret ADBC is not `(exact = 1, color = 2)`. -/
theorem grade_example_not_one_two : grade_seq 4 6 AABD ADBC ≠ some (1, 2) := by
  decide

/-- C5, amended: with SIZE = 4, NUM_COLORS = 6 and the letters A to F for the
symbols 0 to 5, grading the guess AABD against the secret ADBC returns
`(exact = 2, color = 1)`. -/
theorem grade_example_two_one : grade_seq 4 6 AABD ADBC = some (2, 1) := by
  decide

/-- C6: as the header comment of the source says, the guess AABD graded
against the solution ADBC receives the rating `xx.`: two exact-position pins
and one colour-only pin. -/
theorem rating_example_xx_dot :
    (grade_seq 4 6 AABD ADBC).bind (fun p => rating p.1 p.2) = some "xx."
      ∧ (grade_seq 4 6 AABD ADBC).map Prod.fst = some 2
      ∧ (grade_seq 4 6 AABD ADBC).map Prod.snd = some 1 := by
  decide

/-! ## The universe generator: claim C7 -/

theorem gen_comb_eq_mkComb (ncolors : Nat) (val : List Int) (hr : InRange ncolors val) :
    gen_comb ncolors val = some (mkComb ncolors val) := by
  obtain ⟨c, h1, h2, h3, h4⟩ := gen_comb_spec ncolors val hr
  rw [h1]
  congr 1
  cases c with
  | mk v cnt =>
    simp only at h2 h3 h4
    subst h2
    unfold mkComb
    congr 1
    apply List.ext_getElem
    · simp [h3]
    · intro i hi1 hi2
      have := h4 i
      rw [List.getD_eq_getElem _ _ hi1] at this
      simp [this]

theorem digits_length (ncolors : Nat) : ∀ s k, (digits ncolors s k).length = s := by
  intro s
  induction s with
  | zero => intro k; rfl
  | succ s ih => intro k; simp [digits, ih]

theorem digits_inRange (ncolors : Nat) (hn : 0 < ncolors) :
    ∀ s k, InRange ncolors (digits ncolors s k) := by
  intro s
  induction s with
  | zero => intro k e he; simp [digits] at he
  | succ s ih =>
    intro k e he
    rcases List.mem_cons.mp he with rfl | he
    · have := Nat.mod_lt k hn
      constructor
      · exact Int.ofNat_nonneg _
      · exact_mod_cast this
    · exact ih _ e he

theorem succ_div_mod (n k : Nat) (hn : 0 < n) :
    (k % n + 1 = n → (k + 1) % n = 0 ∧ (k + 1) / n = k / n + 1)
      ∧ (k % n + 1 ≠ n → (k + 1) % n = k % n + 1 ∧ (k + 1) / n = k / n) := by
  have hlt := Nat.mod_lt k hn
  have hk := Nat.div_add_mod k n
  constructor
  · intro h
    have e : k + 1 = n * (k / n + 1) := by rw [Nat.mul_add, Nat.mul_one]; omega
    rw [e]
    exact ⟨Nat.mul_mod_right _ _, Nat.mul_div_cancel_left _ hn⟩
  · intro h
    have hr : k % n + 1 < n := by omega
    have e : k + 1 = n * (k / n) + (k % n + 1) := by omega
    rw [e]
    constructor
    · rw [Nat.mul_add_mod, Nat.mod_eq_of_lt hr]
    · rw [Nat.mul_add_div hn, Nat.div_eq_of_lt hr]; rfl

/-- One pass of the carry loop adds one to the counter. -/
theorem next_cur_digits (ncolors : Nat) (hn : 0 < ncolors) :
    ∀ s k, next_cur ncolors (digits ncolors s k) = digits ncolors s (k + 1) := by
  intro s
  induction s with
  | zero => intro k; rfl
  | succ s ih =>
    intro k
    obtain ⟨h1, h2⟩ := succ_div_mod ncolors k hn
    by_cases h : k % ncolors + 1 = ncolors
    · obtain ⟨e1, e2⟩ := h1 h
      have hc : ((k % ncolors : Nat) : Int) + 1 = (ncolors : Int) := by exact_mod_cast h
      simp only [digits, next_cur, hc, if_true, e1, e2, ih]
      rfl
    · obtain ⟨e1, e2⟩ := h2 h
      have hc : ¬ ((k % ncolors : Nat) : Int) + 1 = (ncolors : Int) := by exact_mod_cast h
      simp only [digits, next_cur, hc, if_false, e1, e2]
      push_cast
      rfl

theorem fromDigits_digits (ncolors : Nat) :
    ∀ s k, k < ncolors ^ s → fromDigits ncolors (digits ncolors s k) = k := by
  intro s
  induction s with
  | zero => intro k hk; simp at hk; simp [digits, fromDigits, hk]
  | succ s ih =>
    intro k hk
    have hq : k / ncolors < ncolors ^ s := by
      apply Nat.div_lt_of_lt_mul
      rw [pow_succ, Nat.mul_comm] at hk
      exact hk
    simp only [digits, fromDigits, ih _ hq, Int.toNat_ofNat]
    have := Nat.div_add_mod k ncolors
    omega

theorem digits_fromDigits (ncolors : Nat) (val : List Int) (hr : InRange ncolors val) :
    digits ncolors val.length (fromDigits ncolors val) = val := by
  induction val with
  | nil => rfl
  | cons d rest ih =>
    have hd : 0 ≤ d ∧ d < (ncolors : Int) := hr d (List.mem_cons_self _ _)
    have hrest : InRange ncolors rest := fun e he => hr e (List.mem_cons_of_mem _ he)
    have hlt : d.toNat < ncolors := by omega
    have hpos : 0 < ncolors := by omega
    simp only [List.length_cons, digits, fromDigits]
    rw [Nat.add_mul_mod_self_left, Nat.mod_eq_of_lt hlt, Nat.add_mul_div_left _ _ hpos,
      Nat.div_eq_of_lt hlt, Nat.zero_add, ih hrest, Int.toNat_of_nonneg hd.1]

theorem fromDigits_lt (ncolors : Nat) (val : List Int) (hr : InRange ncolors val) :
    fromDigits ncolors val < ncolors ^ val.length := by
  induction val with
  | nil => simp [fromDigits]
  | cons d rest ih =>
    have hd : 0 ≤ d ∧ d < (ncolors : Int) := hr d (List.mem_cons_self _ _)
    have hrest : InRange ncolors rest := fun e he => hr e (List.mem_cons_of_mem _ he)
    have hlt : d.toNat < ncolors := by omega
    have h := ih hrest
    simp only [List.length_cons, fromDigits, pow_succ]
    calc d.toNat + ncolors * fromDigits ncolors rest
        < ncolors + ncolors * fromDigits ncolors rest := by omega
      _ = ncolors * (fromDigits ncolors rest + 1) := by ring
      _ ≤ ncolors * ncolors ^ rest.length := Nat.mul_le_mul_left _ h
      _ = ncolors ^ rest.length * ncolors := Nat.mul_comm _ _

theorem max_inRange (size ncolors : Nat) (hn : 0 < ncolors) :
    InRange ncolors (List.replicate size ((ncolors : Int) - 1)) := by
  intro e he
  have := List.eq_of_mem_replicate he
  omega

theorem fromDigits_max (size ncolors : Nat) (hn : 0 < ncolors) :
    fromDigits ncolors (List.replicate size ((ncolors : Int) - 1)) + 1 = ncolors ^ size := by
  induction size with
  | zero => simp [fromDigits]
  | succ s ih =>
    have ht : ((ncolors : Int) - 1).toNat + 1 = ncolors := by omega
    simp only [List.replicate_succ, fromDigits, pow_succ]
    calc ((ncolors : Int) - 1).toNat
            + ncolors * fromDigits ncolors (List.replicate s ((ncolors : Int) - 1)) + 1
        = ncolors * (fromDigits ncolors (List.replicate s ((ncolors : Int) - 1)) + 1) := by
          rw [Nat.mul_add]; omega
      _ = ncolors ^ s * ncolors := by rw [ih, Nat.mul_comm]

/-- The counter equals `max` exactly at its last value. -/
theorem digits_eq_max_iff (size ncolors : Nat) (hn : 0 < ncolors) (k : Nat)
    (hk : k < ncolors ^ size) :
    digits ncolors size k = List.replicate size ((ncolors : Int) - 1) ↔ k + 1 = ncolors ^ size := by
  have hmax := fromDigits_max size ncolors hn
  constructor
  · intro h
    have := fromDigits_digits ncolors size k hk
    rw [h] at this
    omega
  · intro h
    have e := digits_fromDigits ncolors _ (max_inRange size ncolors hn)
    rw [List.length_replicate] at e
    have : fromDigits ncolors (List.replicate size ((ncolors : Int) - 1)) = k := by omega
    rw [this] at e
    exact e

theorem digits_zero (size ncolors : Nat) :
    digits ncolors size 0 = List.replicate size 0 := by
  induction size with
  | zero => rfl
  | succ s ih => simp [digits, ih, List.replicate_succ]

/-- The main loop of `gen_all_combs`, started at the counter value `k` with
`m` values still to come: it ends, having appended the codes of the values
`k + 1, ..., k + m`. -/
theorem gen_all_combs_loop_spec (size ncolors : Nat) (hn : 0 < ncolors) :
    ∀ (m k fuel : Nat) (acc : List Comb), k + m + 1 = ncolors ^ size → m < fuel →
      gen_all_combs_loop size ncolors fuel (digits ncolors size k) acc
        = some (acc ++ (List.range' (k + 1) m).map
            (fun j => mkComb ncolors (digits ncolors size j))) := by
  intro m
  induction m with
  | zero =>
    intro k fuel acc hk hf
    obtain ⟨f, rfl⟩ : ∃ f, fuel = f + 1 := ⟨fuel - 1, by omega⟩
    have hmax := (digits_eq_max_iff size ncolors hn k (by omega)).mpr (by omega)
    simp [gen_all_combs_loop, hmax]
  | succ m ih =>
    intro k fuel acc hk hf
    obtain ⟨f, rfl⟩ : ∃ f, fuel = f + 1 := ⟨fuel - 1, by omega⟩
    have hne : digits ncolors size k ≠ List.replicate size ((ncolors : Int) - 1) := by
      intro h
      have := (digits_eq_max_iff size ncolors hn k (by omega)).mp h
      omega
    have hg := gen_comb_eq_mkComb ncolors _ (digits_inRange ncolors hn size (k + 1))
    rw [gen_all_combs_loop]
    simp only [hne, ne_eq, not_false_eq_true, if_true, next_cur_digits ncolors hn, hg]
    rw [ih (k + 1) f _ (by omega) (by omega)]
    simp [List.range'_succ]

/-- With enough fuel `gen_all_combs` returns the codes of the counter values
`0, ..., NUM_COLORS^SIZE - 1`, in this order. -/
theorem gen_all_combs_eq (size ncolors : Nat) (hn : 0 < ncolors) (fuel : Nat)
    (hf : ncolors ^ size ≤ fuel) :
    gen_all_combs size ncolors fuel
      = some ((List.range (ncolors ^ size)).map
          (fun j => mkComb ncolors (digits ncolors size j))) := by
  have hpos : 0 < ncolors ^ size := pow_pos hn size
  have hz := digits_zero size ncolors
  have hg := gen_comb_eq_mkComb ncolors _ (digits_inRange ncolors hn size 0)
  rw [hz] at hg
  unfold gen_all_combs
  simp only [hg]
  rw [← hz, gen_all_combs_loop_spec size ncolors hn (ncolors ^ size - 1) 0 fuel _ (by omega)
    (by omega)]
  congr 1
  obtain ⟨N, hN⟩ : ∃ N, ncolors ^ size = N + 1 := ⟨ncolors ^ size - 1, by omega⟩
  rw [hN, List.range_eq_range', List.range'_succ]
  simp

/-- C7: `gen_all_combs` terminates (any fuel of at least NUM_COLORS^SIZE
gives the same list) and returns exactly NUM_COLORS^SIZE codes, without
duplicates (no two of them even share a sequence), each a length-SIZE
sequence over `[0, NUM_COLORS)`, among which every such sequence occurs with
its histogram, that is, as the code that `gen_comb` builds from it. -/
theorem gen_all_combs_universe (size ncolors : Nat) (hn : 0 < ncolors) :
    ∃ l, (∀ fuel, ncolors ^ size ≤ fuel → gen_all_combs size ncolors fuel = some l)
      ∧ l.length = ncolors ^ size
      ∧ l.Nodup ∧ (l.map Comb.val).Nodup
      ∧ (∀ c ∈ l, c.val.length = size ∧ ∀ e ∈ c.val, 0 ≤ e ∧ e < (ncolors : Int))
      ∧ ∀ v : List Int, v.length = size → (∀ e ∈ v, 0 ≤ e ∧ e < (ncolors : Int)) →
          ∃ c ∈ l, c.val = v ∧ gen_comb ncolors v = some c ∧ c = mkComb ncolors v := by
  have hnd : (((List.range (ncolors ^ size)).map
      (fun j => mkComb ncolors (digits ncolors size j))).map Comb.val).Nodup := by
    rw [List.map_map]
    apply List.Nodup.map_on _ (List.nodup_range _)
    intro x hx y hy hxy
    simp only [Function.comp, mkComb] at hxy
    have h1 := fromDigits_digits ncolors size x (List.mem_range.mp hx)
    have h2 := fromDigits_digits ncolors size y (List.mem_range.mp hy)
    rw [hxy] at h1
    omega
  refine ⟨_, fun fuel hf => gen_all_combs_eq size ncolors hn fuel hf, by simp,
    List.Nodup.of_map _ hnd, hnd, ?_, ?_⟩
  · intro c hc
    obtain ⟨j, _, rfl⟩ := List.mem_map.mp hc
    exact ⟨digits_length ncolors size j, digits_inRange ncolors hn size j⟩
  · intro v hl hr
    refine ⟨mkComb ncolors v, ?_, rfl, gen_comb_eq_mkComb ncolors v hr, rfl⟩
    apply List.mem_map.mpr
    refine ⟨fromDigits ncolors v, List.mem_range.mpr ?_, ?_⟩
    · have := fromDigits_lt ncolors v hr
      rwa [hl] at this
    · have := digits_fromDigits ncolors v hr
      rw [hl] at this
      rw [this]

theorem gen_all_combs_universe_witness :
    ∃ l, (∀ fuel, 2 ^ 2 ≤ fuel → gen_all_combs 2 2 fuel = some l)
      ∧ l.length = 2 ^ 2
      ∧ l.Nodup ∧ (l.map Comb.val).Nodup
      ∧ (∀ c ∈ l, c.val.length = 2 ∧ ∀ e ∈ c.val, 0 ≤ e ∧ e < ((2 : Nat) : Int))
      ∧ ∀ v : List Int, v.length = 2 → (∀ e ∈ v, 0 ≤ e ∧ e < ((2 : Nat) : Int)) →
          ∃ c ∈ l, c.val = v ∧ gen_comb 2 v = some c ∧ c = mkComb 2 v :=
  gen_all_combs_universe 2 2 (by decide)

/-! ## The elimination step: claims C8 and C9 -/

theorem processHistory_iff (size ncolors : Nat) (history : List GuessIter) (c : Comb) :
    processHistory size ncolors history c = true
      ↔ ∀ h ∈ history, grade size ncolors h.guess c = (h.right, h.swap) := by
  induction history with
  | nil => simp [processHistory]
  | cons h rest ih =>
    simp only [processHistory, List.forall_mem_cons, ← ih]
    by_cases hg : grade size ncolors h.guess c = (h.right, h.swap)
    · simp [hg]
    · have : (grade size ncolors h.guess c).1 ≠ h.right
          ∨ (grade size ncolors h.guess c).2 ≠ h.swap := by
        by_contra hcon
        push_neg at hcon
        exact hg (Prod.ext hcon.1 hcon.2)
      simp [hg, this]

theorem new_combs_fold (size ncolors : Nat) (history : List GuessIter) (combs : List Comb) :
    ∀ acc : List Comb,
      combs.foldl
          (fun acc c => if !processHistory size ncolors history c then acc else acc ++ [c]) acc
        = acc ++ combs.filter (fun c => processHistory size ncolors history c) := by
  induction combs with
  | nil => intro acc; simp
  | cons c rest ih =>
    intro acc
    rw [List.foldl_cons, ih]
    by_cases hc : processHistory size ncolors history c = true
    · simp [hc, List.filter_cons]
    · simp [hc, List.filter_cons]

theorem new_combs_eq_filter (size ncolors : Nat) (history : List GuessIter)
    (combs : List Comb) :
    new_combs size ncolors history combs
      = combs.filter (fun c => processHistory size ncolors history c) := by
  unfold new_combs
  rw [new_combs_fold]
  rfl

theorem processHistory_append (size ncolors : Nat) (h1 h2 : List GuessIter) (c : Comb) :
    processHistory size ncolors (h1 ++ h2) c = true
      ↔ processHistory size ncolors h1 c = true ∧ processHistory size ncolors h2 c = true := by
  simp only [processHistory_iff, List.forall_mem_append]

/-- C8: the elimination step keeps exactly the consistent candidates.
`processHistory(history, c)` is true if and only if `grade(h.guess, c)` is
`(h.right, h.swap)` for every entry `h` of the history, and the list
`new_combs` built in `computer_guess` is the old list restricted, in order,
to the codes for which it is true. -/
theorem elimination_exact (size ncolors : Nat) (history : List GuessIter) :
    (∀ c : Comb, processHistory size ncolors history c = true
        ↔ ∀ h ∈ history, grade size ncolors h.guess c = (h.right, h.swap))
      ∧ ∀ combs : List Comb, new_combs size ncolors history combs
          = combs.filter (fun c => processHistory size ncolors history c) :=
  ⟨fun c => processHistory_iff size ncolors history c,
   fun combs => new_combs_eq_filter size ncolors history combs⟩

/-- C9: filtering is monotone in the history. Every code kept by filtering
`C` against `H1 ++ H2` is also kept by filtering `C` against `H1` (the first
list is a sublist of the second, which is a sublist of `C`: nothing is
re-admitted), and filtering twice against the same history equals filtering
once. -/
theorem filter_monotone (size ncolors : Nat) (C : List Comb) (H1 H2 : List GuessIter) :
    (∀ c ∈ new_combs size ncolors (H1 ++ H2) C, c ∈ new_combs size ncolors H1 C)
      ∧ (new_combs size ncolors (H1 ++ H2) C).Sublist (new_combs size ncolors H1 C)
      ∧ (new_combs size ncolors H1 C).Sublist C
      ∧ new_combs size ncolors H1 (new_combs size ncolors H1 C) = new_combs size ncolors H1 C := by
  have hsub : (new_combs size ncolors (H1 ++ H2) C).Sublist (new_combs size ncolors H1 C) := by
    have e : new_combs size ncolors (H1 ++ H2) C
        = (new_combs size ncolors H1 C).filter (fun c => processHistory size ncolors H2 c) := by
      simp only [new_combs_eq_filter, List.filter_filter]
      apply List.filter_congr
      intro c _
      have := processHistory_append size ncolors H1 H2 c
      cases h1 : processHistory size ncolors H1 c <;>
        cases h2 : processHistory size ncolors H2 c <;>
        cases h3 : processHistory size ncolors (H1 ++ H2) c <;> simp_all
    rw [e]
    exact List.filter_sublist _
  refine ⟨fun c hc => hsub.subset hc, hsub, ?_, ?_⟩
  · rw [new_combs_eq_filter]
    exact List.filter_sublist _
  · simp only [new_combs_eq_filter, List.filter_filter, Bool.and_self]

/-! ## split_slice -/

theorem wrap64_eq (x : Int) (h1 : -9223372036854775808 ≤ x) (h2 : x ≤ MaxInt64) :
    wrap64 x = x := by
  unfold wrap64
  unfold MaxInt64 at h2
  omega

theorem wrap64_sub_one (x : Int) : wrap64 (wrap64 x - 1) = wrap64 (x - 1) := by
  unfold wrap64
  omega

/-- A result that fits in an `int` is not changed by the wrap-around. -/
theorem int_result_eq (len : Nat) (x : Int)
    (h : (len : Int) ≤ MaxInt64 → -9223372036854775808 ≤ x ∧ x ≤ MaxInt64) :
    int_result len x = x := by
  unfold int_result
  by_cases hl : (len : Int) ≤ MaxInt64
  · rw [if_pos hl]
    exact wrap64_eq x (h hl).1 (h hl).2
  · rw [if_neg hl]

/-- The numerator `len(s) + n - 1` of the chunk size, when it fits. -/
theorem int_result_numerator (len : Nat) (n : Int) (hn : 1 ≤ n)
    (hb : (len : Int) ≤ MaxInt64 → (len : Int) + n - 1 ≤ MaxInt64) :
    int_result len (int_result len ((len : Int) + n) - 1) = (len : Int) + n - 1 := by
  unfold int_result
  by_cases hl : (len : Int) ≤ MaxInt64
  · simp only [if_pos hl]
    rw [wrap64_sub_one]
    exact wrap64_eq _ (by omega) (hb hl)
  · simp only [if_neg hl]

/-- One turn of the loop of `split_slice` at an index inside the slice, when
the next index fits in an `int`. -/
theorem split_slice_loop_step {α : Type} (s : List α) (cs fuel j : Nat)
    (divided : List (List α)) (hj : j < s.length)
    (hw : (s.length : Int) ≤ MaxInt64 → ((j + cs : Nat) : Int) ≤ MaxInt64) :
    split_slice_loop s (cs : Int) (fuel + 1) (j : Int) divided
      = split_slice_loop s (cs : Int) fuel ((j + cs : Nat) : Int)
          (divided ++ [(s.drop j).take (min cs (s.length - j))]) := by
  have hj2 : (j : Int) < (s.length : Int) := by exact_mod_cast hj
  have hir : int_result s.length ((j : Int) + (cs : Int)) = (j : Int) + (cs : Int) := by
    apply int_result_eq
    intro hl
    have := hw hl
    push_cast at this
    omega
  rw [split_slice_loop]
  simp only [hj2, if_true, hir]
  by_cases hover : (j : Int) + (cs : Int) > (s.length : Int)
  · have hno : ¬ ((j : Int) < 0 ∨ (s.length : Int) < (j : Int)) := by omega
    have e : ((s.length : Int) - (j : Int)).toNat = min cs (s.length - j) := by omega
    simp only [hover, if_true, hno, if_false, Int.toNat_ofNat, e]
    rfl
  · have hno : ¬ ((j : Int) < 0 ∨ (j : Int) + (cs : Int) < (j : Int)) := by omega
    have e : ((j : Int) + (cs : Int) - (j : Int)).toNat = min cs (s.length - j) := by omega
    simp only [hover, if_false, hno, Int.toNat_ofNat, e]
    rfl

/-- The loop of `split_slice` with a positive chunk size, from the index
`q * cs`, when every index it reaches fits in an `int`: it ends, and appends
non-empty chunks that together are the rest of the slice. -/
theorem split_slice_loop_spec {α : Type} (s : List α) (cs : Nat) (hcs : 0 < cs)
    (hB : ∀ q : Nat, q * cs < s.length → (s.length : Int) ≤ MaxInt64 →
      (((q + 1) * cs : Nat) : Int) ≤ MaxInt64) :
    ∀ (fuel q : Nat) (divided : List (List α)), s.length - q * cs < fuel →
      ∃ chunks, split_slice_loop s (cs : Int) fuel ((q * cs : Nat) : Int) divided
          = some (divided ++ chunks)
        ∧ chunks.flatten = s.drop (q * cs)
        ∧ chunks.length * cs < (s.length - q * cs) + cs
        ∧ ∀ c ∈ chunks, c ≠ [] := by
  intro fuel
  induction fuel with
  | zero => intro q divided h; omega
  | succ f ih =>
    intro q divided hf
    have hq1 : (q + 1) * cs = q * cs + cs := by rw [Nat.add_mul, Nat.one_mul]
    by_cases hj : q * cs < s.length
    · obtain ⟨chunks, h1, h2, h3, h4⟩ :=
        ih (q + 1) (divided ++ [(s.drop (q * cs)).take (min cs (s.length - q * cs))])
          (by rw [hq1]; omega)
      rw [hq1] at h1 h2 h3
      refine ⟨(s.drop (q * cs)).take (min cs (s.length - q * cs)) :: chunks, ?_, ?_, ?_, ?_⟩
      · rw [split_slice_loop_step s cs f (q * cs) divided hj
          (fun hl => by have := hB q hj hl; rw [hq1] at this; exact this), h1]
        simp
      · rw [List.flatten_cons, h2]
        have e : (s.drop (q * cs)).take (min cs (s.length - q * cs))
            = (s.drop (q * cs)).take cs := by
          rcases Nat.le_total cs (s.length - q * cs) with hle | hle
          · rw [Nat.min_eq_left hle]
          · rw [Nat.min_eq_right hle, List.take_of_length_le (by simp),
              List.take_of_length_le (by simpa using hle)]
        rw [e, ← List.drop_drop, List.take_append_drop]
      · rw [List.length_cons, Nat.add_mul, Nat.one_mul]
        rcases Nat.lt_or_ge s.length (q * cs + cs) with hlt | hge
        · have h0 : chunks.length * cs < 1 * cs := by omega
          have := Nat.lt_of_mul_lt_mul_right h0
          have hz : chunks.length = 0 := by omega
          rw [hz]
          omega
        · omega
      · intro c hc
        rcases List.mem_cons.mp hc with rfl | hc
        · intro hnil
          have := congrArg List.length hnil
          simp at this
          omega
        · exact h4 c hc
    · refine ⟨[], ?_, ?_, ?_, ?_⟩
      · have hj2 : ¬ ((q * cs : Nat) : Int) < (s.length : Int) := by omega
        rw [split_slice_loop, if_neg hj2]
        simp
      · rw [List.drop_eq_nil_of_le (by omega)]; rfl
      · simp; omega
      · intro c hc; simp at hc

/-- What `split_slice(s, n)` returns for `n >= 1` when `len(s) + n - 1` fits
in an `int`: at most `n` chunks, each non-empty, whose concatenation in order
is `s`. -/
theorem split_slice_spec {α : Type} (s : List α) (n : Int) (hn : 1 ≤ n)
    (hb : (s.length : Int) ≤ MaxInt64 → (s.length : Int) + n - 1 ≤ MaxInt64) :
    ∃ chunks, split_slice s n = some chunks ∧ chunks.flatten = s
      ∧ (chunks.length : Int) ≤ n ∧ ∀ c ∈ chunks, c ≠ [] := by
  obtain ⟨m, rfl⟩ : ∃ m : Nat, n = (m : Int) := ⟨n.toNat, by omega⟩
  have hm : 1 ≤ m := by omega
  have hn0 : ¬ (m : Int) = 0 := by omega
  have hdivle : (s.length + m - 1) / m ≤ s.length + m - 1 := Nat.div_le_self _ _
  have hcs : int_result s.length
      ((int_result s.length (int_result s.length ((s.length : Int) + (m : Int)) - 1)).tdiv
        (m : Int))
      = (((s.length + m - 1) / m : Nat) : Int) := by
    rw [int_result_numerator s.length (m : Int) hn hb]
    have e : (s.length : Int) + (m : Int) - 1 = ((s.length + m - 1 : Nat) : Int) := by omega
    rw [e, ← Int.ofNat_tdiv]
    apply int_result_eq
    intro hl
    have h1 := hb hl
    have h2 : (((s.length + m - 1) / m : Nat) : Int) ≤ ((s.length + m - 1 : Nat) : Int) := by
      exact_mod_cast hdivle
    have h3 : (0 : Int) ≤ (((s.length + m - 1) / m : Nat) : Int) := Int.ofNat_nonneg _
    unfold MaxInt64 at h1 ⊢
    constructor
    · exact le_trans (by decide) h3
    · exact le_trans h2 (by omega)
  unfold split_slice
  simp only [hn0, if_false, hcs]
  by_cases hs : s.length = 0
  · have : s = [] := List.length_eq_zero.mp hs
    subst this
    refine ⟨[], ?_, rfl, by simp, by simp⟩
    simp [split_slice_loop]
  · have hdiv : s.length ≤ m * ((s.length + m - 1) / m) := by
      have h1 := Nat.div_add_mod (s.length + m - 1) m
      have h2 := Nat.mod_lt (s.length + m - 1) (show 0 < m by omega)
      omega
    have hmul : m * ((s.length + m - 1) / m) ≤ s.length + m - 1 := Nat.mul_div_le _ _
    have hcs1 : 0 < (s.length + m - 1) / m := by
      rcases Nat.eq_zero_or_pos ((s.length + m - 1) / m) with h0 | h0
      · rw [h0] at hdiv; omega
      · exact h0
    have hB : ∀ q : Nat, q * ((s.length + m - 1) / m) < s.length →
        (s.length : Int) ≤ MaxInt64 →
        (((q + 1) * ((s.length + m - 1) / m) : Nat) : Int) ≤ MaxInt64 := by
      intro q hq hl
      have hqm : q * ((s.length + m - 1) / m) < m * ((s.length + m - 1) / m) :=
        lt_of_lt_of_le hq hdiv
      have hq1 : q + 1 ≤ m := Nat.lt_of_mul_lt_mul_right hqm
      have h3 : (q + 1) * ((s.length + m - 1) / m) ≤ m * ((s.length + m - 1) / m) :=
        Nat.mul_le_mul_right _ hq1
      have h4 := hb hl
      have h5 : ((q + 1) * ((s.length + m - 1) / m) : Nat) ≤ s.length + m - 1 :=
        le_trans h3 hmul
      have h6 : (((q + 1) * ((s.length + m - 1) / m) : Nat) : Int)
          ≤ ((s.length + m - 1 : Nat) : Int) := by exact_mod_cast h5
      omega
    obtain ⟨chunks, h1, h2, h3, h4⟩ :=
      split_slice_loop_spec s _ hcs1 hB (s.length + 1) 0 [] (by omega)
    refine ⟨chunks, ?_, by simpa using h2, ?_, h4⟩
    · simpa using h1
    · have h5 : chunks.length * ((s.length + m - 1) / m)
          < (m + 1) * ((s.length + m - 1) / m) := by
        rw [Nat.add_mul, Nat.one_mul]
        omega
      have := Nat.lt_of_mul_lt_mul_right h5
      omega

/-! ## The pair test of find_best_guess and the grader -/

theorem pair_cols_eq (ncolors : Nat) (a b c : Comb) :
    pair_cols ncolors a b c = (grade_col ncolors a b, grade_col ncolors a c) := by
  unfold pair_cols grade_col
  induction ncolors with
  | zero => rfl
  | succ n ih =>
    simp only [List.range_succ, List.foldl_append, List.foldl_cons, List.foldl_nil, ih]

theorem pair_fold (a b c : Comb) (n : Nat) (st : Int × Int × Int) :
    (List.range n).foldl (pair_step a b c) st
      = (st.1 + (posMatches n a.val b.val : Int) - (posMatches n a.val c.val : Int),
         st.2.1 - (posMatches n a.val b.val : Int),
         st.2.2 - (posMatches n a.val c.val : Int)) := by
  induction n with
  | zero => simp [posMatches]
  | succ n ih =>
    rw [List.range_succ, List.foldl_append, ih, posMatches_succ, posMatches_succ]
    simp only [List.foldl_cons, List.foldl_nil, pair_step]
    by_cases h1 : a.val.getD n 0 = b.val.getD n 0
    · by_cases h2 : a.val.getD n 0 = c.val.getD n 0
      · simp only [if_pos h1, if_pos h2]
        ext <;> push_cast <;> ring
      · simp only [if_pos h1, if_neg h2]
        ext <;> push_cast <;> ring
    · by_cases h2 : a.val.getD n 0 = c.val.getD n 0
      · simp only [if_neg h1, if_pos h2]
        ext <;> push_cast <;> ring
      · simp only [if_neg h1, if_neg h2]
        ext <;> push_cast <;> ring

/-- The inlined pair test counts a pair exactly when the grader tells its two
codes apart. -/
theorem pair_counted_iff (size ncolors : Nat) (a b c : Comb) :
    pair_counted size ncolors a b c = true
      ↔ grade size ncolors a b ≠ grade size ncolors a c := by
  unfold pair_counted
  rw [pair_fold, pair_cols_eq]
  unfold grade
  rw [grade_fold, grade_fold]
  simp only [Bool.not_eq_true', Bool.and_eq_false_iff, beq_eq_false_iff_ne, ne_eq,
    Prod.mk.injEq, not_and]
  constructor
  · rintro (h | h) h1 h2
    · omega
    · omega
  · intro h
    by_cases h1 : (0 : Int) + (posMatches size a.val b.val : Int)
        = 0 + (posMatches size a.val c.val : Int)
    · right
      intro h2
      exact h h1 (by omega)
    · left
      omega

theorem pair_counted_eq (size ncolors : Nat) (a b c : Comb) :
    pair_counted size ncolors a b c
      = decide (grade size ncolors a b ≠ grade size ncolors a c) := by
  by_cases h : grade size ncolors a b ≠ grade size ncolors a c
  · rw [(pair_counted_iff size ncolors a b c).mpr h]; simp [h]
  · have : ¬ pair_counted size ncolors a b c = true :=
      fun hp => h ((pair_counted_iff size ncolors a b c).mp hp)
    simp only [Bool.not_eq_true] at this
    rw [this]; simp [h]

theorem count_fold (p : Nat → Bool) (n : Nat) (init : Int) :
    (List.range n).foldl (fun rem i => if p i then rem + 1 else rem) init
      = init + ((List.range n).countP p : Int) := by
  induction n with
  | zero => simp
  | succ n ih =>
    rw [List.range_succ, List.foldl_append, ih, List.countP_append]
    by_cases h : p n = true
    · simp [h, List.countP_cons]; ring
    · simp [h, List.countP_cons]

theorem count_fold_fold (p : Nat → Nat → Bool) (m : Nat → Nat) :
    ∀ (l : List Nat) (init : Int),
      l.foldl (fun rem bi =>
          (List.range (m bi)).foldl (fun rem ci => if p bi ci then rem + 1 else rem) rem) init
        = init + (((l.map (fun bi => (List.range (m bi)).countP (p bi))).sum : Nat) : Int) := by
  intro l
  induction l with
  | nil => intro init; simp
  | cons x xs ih =>
    intro init
    rw [List.foldl_cons, ih, count_fold]
    simp only [List.map_cons, List.sum_cons]
    push_cast
    ring

theorem map_getD_range {α : Type} (d : α) (l : List α) :
    (List.range l.length).map (fun i => l.getD i d) = l := by
  induction l with
  | nil => rfl
  | cons x xs ih =>
    rw [List.length_cons, List.range_succ_eq_map, List.map_cons, List.map_map]
    simp only [List.getD_cons_zero]
    congr 1

theorem countP_range_getD {α : Type} (d : α) (q : α → Bool) (l : List α) :
    (List.range l.length).countP (fun i => q (l.getD i d)) = l.countP q := by
  conv_rhs => rw [← map_getD_range d l]
  rw [List.countP_map]
  rfl

/-- The counter `rem` of `find_best_guess` as a sum of counts. -/
theorem rem_count_eq_sum (size ncolors : Nat) (a : Comb) (loc_combs : List Comb) :
    rem_count size ncolors a loc_combs
      = ((((List.range (loc_combs.length - 1)).map (fun bi =>
          (List.range (loc_combs.length - 1 - bi)).countP (fun ci =>
            pair_counted size ncolors a
              (loc_combs.getD bi (Comb.zero size ncolors))
              (loc_combs.getD (ci + bi + 1) (Comb.zero size ncolors))))).sum : Nat) : Int) := by
  unfold rem_count
  rw [count_fold_fold (fun bi ci => pair_counted size ncolors a
      (loc_combs.getD bi (Comb.zero size ncolors))
      (loc_combs.getD (ci + bi + 1) (Comb.zero size ncolors)))
    (fun bi => loc_combs.length - 1 - bi)]
  simp

/-- The counter `rem` that `find_best_guess` computes for a guess is the
distinguished-pair count of the guess against the scoring pool. -/
theorem rem_count_eq_distinguished (size ncolors : Nat) (a : Comb) (loc_combs : List Comb) :
    rem_count size ncolors a loc_combs = (distinguished size ncolors a loc_combs : Int) := by
  rw [rem_count_eq_sum]
  congr 1
  induction loc_combs with
  | nil => rfl
  | cons b rest ih =>
    cases rest with
    | nil => simp [distinguished]
    | cons c rest2 =>
      rw [distinguished, ← ih]
      simp only [List.length_cons, Nat.add_sub_cancel]
      rw [List.range_succ_eq_map, List.map_cons, List.sum_cons, List.map_map]
      congr 1
      · have := countP_range_getD (Comb.zero size ncolors)
          (fun x => decide (grade size ncolors a b ≠ grade size ncolors a x)) (c :: rest2)
        rw [← this]
        simp only [List.length_cons, Nat.sub_zero, Nat.add_zero, List.getD_cons_zero,
          List.getD_cons_succ, pair_counted_eq]
      · congr 1
        apply List.map_congr_left
        intro bi _
        simp only [Function.comp, Nat.succ_eq_add_one, List.getD_cons_succ, ← Nat.add_assoc,
          Nat.add_sub_add_right]

/-! ## The best-guess search: claim C10 -/

theorem foldl_ge_init {β : Type} (f : Int → β → Int) (hf : ∀ r x, r ≤ f r x) :
    ∀ (l : List β) (init : Int), init ≤ l.foldl f init := by
  intro l
  induction l with
  | nil => intro init; exact le_refl _
  | cons x xs ih => intro init; exact le_trans (hf init x) (ih (f init x))

/-- The counter `rem` is never negative. -/
theorem rem_count_nonneg (size ncolors : Nat) (a : Comb) (loc_combs : List Comb) :
    0 ≤ rem_count size ncolors a loc_combs := by
  unfold rem_count
  apply foldl_ge_init
  intro r bi
  apply foldl_ge_init
  intro r2 ci
  split <;> omega

/-- The outer loop of `find_best_guess` from the state `st`: the best count
only grows, bounds the count of every code passed, and stays at most the
count of the best guess if it was so at the start. -/
theorem best_fold_spec (size ncolors : Nat) (loc_combs : List Comb) :
    ∀ (l : List Comb) (st : Comb × Int),
      st.2 ≤ (l.foldl (best_step size ncolors loc_combs) st).2
        ∧ (∀ a ∈ l, rem_count size ncolors a loc_combs
            ≤ (l.foldl (best_step size ncolors loc_combs) st).2)
        ∧ (st.2 ≤ rem_count size ncolors st.1 loc_combs →
            (l.foldl (best_step size ncolors loc_combs) st).2
              ≤ rem_count size ncolors (l.foldl (best_step size ncolors loc_combs) st).1
                  loc_combs) := by
  intro l
  induction l with
  | nil => intro st; exact ⟨le_refl _, by simp, fun h => h⟩
  | cons x xs ih =>
    intro st
    obtain ⟨h1, h2, h3⟩ := ih (best_step size ncolors loc_combs st x)
    have hstep : st.2 ≤ (best_step size ncolors loc_combs st x).2
        ∧ rem_count size ncolors x loc_combs ≤ (best_step size ncolors loc_combs st x).2
        ∧ (st.2 ≤ rem_count size ncolors st.1 loc_combs →
            (best_step size ncolors loc_combs st x).2
              ≤ rem_count size ncolors (best_step size ncolors loc_combs st x).1 loc_combs) := by
      unfold best_step
      by_cases hgt : rem_count size ncolors x loc_combs > st.2
      · simp only [hgt, if_true]
        exact ⟨le_of_lt hgt, le_refl _, fun _ => le_refl _⟩
      · simp only [hgt, if_false]
        exact ⟨le_refl _, not_lt.mp hgt, fun h => h⟩
    rw [List.foldl_cons]
    refine ⟨le_trans hstep.1 h1, ?_, fun h => h3 (hstep.2.2 h)⟩
    intro a ha
    rcases List.mem_cons.mp ha with rfl | ha
    · exact le_trans hstep.2.1 h1
    · exact h2 a ha

/-- What a worker posts: a score that bounds the count of every code of its
chunk and is at most the count of the code posted with it. -/
theorem find_best_guess_spec (size ncolors : Nat) (loopover_combs loc_combs : List Comb) :
    (∀ a ∈ loopover_combs, rem_count size ncolors a loc_combs
        ≤ (find_best_guess size ncolors loopover_combs loc_combs).maxrem)
      ∧ (find_best_guess size ncolors loopover_combs loc_combs).maxrem
          ≤ rem_count size ncolors (find_best_guess size ncolors loopover_combs loc_combs).comb
              loc_combs := by
  obtain ⟨_, h2, h3⟩ :=
    best_fold_spec size ncolors loc_combs loopover_combs (Comb.zero size ncolors, 0)
  exact ⟨h2, h3 (rem_count_nonneg size ncolors _ loc_combs)⟩

/-- The reduction loop of `find_best_guess_parallel` from the state `st`. -/
theorem reduce_fold_spec (size ncolors : Nat) (loc_combs : List Comb) :
    ∀ (l : List ThreadRes) (st : Comb × Int),
      (∀ t ∈ l, t.maxrem ≤ (l.foldl reduce_step st).2)
        ∧ st.2 ≤ (l.foldl reduce_step st).2
        ∧ ((∀ t ∈ l, t.maxrem ≤ rem_count size ncolors t.comb loc_combs) →
            st.2 ≤ rem_count size ncolors st.1 loc_combs →
            (l.foldl reduce_step st).2
              ≤ rem_count size ncolors (l.foldl reduce_step st).1 loc_combs) := by
  intro l
  induction l with
  | nil => intro st; exact ⟨by simp, le_refl _, fun _ h => h⟩
  | cons x xs ih =>
    intro st
    obtain ⟨h1, h2, h3⟩ := ih (reduce_step st x)
    have hstep : st.2 ≤ (reduce_step st x).2 ∧ x.maxrem ≤ (reduce_step st x).2
        ∧ (x.maxrem ≤ rem_count size ncolors x.comb loc_combs →
            st.2 ≤ rem_count size ncolors st.1 loc_combs →
            (reduce_step st x).2 ≤ rem_count size ncolors (reduce_step st x).1 loc_combs) := by
      unfold reduce_step
      by_cases hgt : x.maxrem > st.2
      · simp only [hgt, if_true]
        exact ⟨le_of_lt hgt, le_refl _, fun h _ => h⟩
      · simp only [hgt, if_false]
        exact ⟨le_refl _, not_lt.mp hgt, fun _ h => h⟩
    rw [List.foldl_cons]
    refine ⟨?_, le_trans hstep.1 h2, fun hall hst => ?_⟩
    · intro t ht
      rcases List.mem_cons.mp ht with rfl | ht
      · exact le_trans hstep.2.1 h2
      · exact h1 t ht
    · exact h3 (fun t ht => hall t (List.mem_cons_of_mem _ ht))
        (hstep.2.2 (hall x (List.mem_cons_self _ _)) hst)

theorem filterMap_range_getElem? {α : Type} (l : List α) :
    (List.range l.length).filterMap (fun w => l[w]?) = l := by
  induction l with
  | nil => rfl
  | cons x xs ih =>
    rw [List.length_cons, List.range_succ_eq_map, List.filterMap_cons]
    simp only [List.getElem?_cons_zero, List.filterMap_map]
    congr 1
    have e : ((fun w => (x :: xs)[w]?) ∘ Nat.succ) = (fun w => xs[w]?) := by
      funext w
      simp [Function.comp]
    rw [e, ih]

/-- The results collected when every worker's send is received once, in any
order, are the posted results up to order. -/
theorem collected_perm {α : Type} (posted : List α) (order : List Nat) (k : Nat)
    (hk : posted.length ≤ k) (hperm : order.Perm (List.range posted.length)) :
    ((order.filterMap (fun w => posted[w]?)).take k).Perm posted := by
  have h := List.Perm.filterMap (fun w => posted[w]?) hperm
  rw [filterMap_range_getElem?] at h
  rw [List.take_of_length_le (by rw [h.length_eq]; exact hk)]
  exact h

/-- The parallel branch: when there are exactly `THREADS` chunks and every
worker's send is received once, the collection loop gets its `THREADS`
results, and the reduction returns a code whose count is at least that of
every code of every chunk. -/
theorem parallel_branch_max (size ncolors : Nat) (T : Int) (loc_combs : List Comb)
    (split : List (List Comb)) (order : List Nat) (hlen : (split.length : Int) = T)
    (hperm : order.Perm (List.range split.length)) :
    ¬ ((((order.filterMap (fun w =>
          (split.map (fun chunk => find_best_guess size ncolors chunk loc_combs))[w]?)).take
            T.toNat).length : Int) < T)
      ∧ ∀ a ∈ split.flatten, rem_count size ncolors a loc_combs
          ≤ rem_count size ncolors
              (((order.filterMap (fun w =>
                  (split.map (fun chunk => find_best_guess size ncolors chunk loc_combs))[w]?)).take
                    T.toNat).foldl reduce_step (Comb.zero size ncolors, 0)).1 loc_combs := by
  have hp := collected_perm (split.map (fun chunk => find_best_guess size ncolors chunk loc_combs))
    order T.toNat (by rw [List.length_map]; omega) (by rw [List.length_map]; exact hperm)
  have hposted : ∀ t ∈ split.map (fun chunk => find_best_guess size ncolors chunk loc_combs),
      t.maxrem ≤ rem_count size ncolors t.comb loc_combs := by
    intro t ht
    obtain ⟨chunk, _, rfl⟩ := List.mem_map.mp ht
    exact (find_best_guess_spec size ncolors chunk loc_combs).2
  obtain ⟨h1, _, h3⟩ := reduce_fold_spec size ncolors loc_combs
    ((order.filterMap (fun w =>
      (split.map (fun chunk => find_best_guess size ncolors chunk loc_combs))[w]?)).take T.toNat)
    (Comb.zero size ncolors, 0)
  constructor
  · rw [hp.length_eq, List.length_map]
    omega
  · intro a ha
    obtain ⟨chunk, hchunk, hac⟩ := List.mem_flatten.mp ha
    have hmem : find_best_guess size ncolors chunk loc_combs
        ∈ split.map (fun chunk => find_best_guess size ncolors chunk loc_combs) :=
      List.mem_map.mpr ⟨chunk, hchunk, rfl⟩
    have ha1 := (find_best_guess_spec size ncolors chunk loc_combs).1 a hac
    have ha2 := h1 _ (hp.mem_iff.mpr hmem)
    have ha3 := h3 (fun t ht => hposted t (hp.mem_iff.mp ht))
      (rem_count_nonneg size ncolors _ loc_combs)
    exact le_trans ha1 (le_trans ha2 ha3)

/-- `find_best_guess_parallel` once the pool has been split: the choice
between the single worker and the `THREADS` workers, and the reduction. -/
theorem find_best_guess_parallel_core (size ncolors : Nat) (T : Int)
    (loopover : Option (List Comb)) (loc_combs : List Comb) (split : List (List Comb))
    (order : List Nat) (hflat : split.flatten = loopover.getD loc_combs)
    (hlen : (split.length : Int) ≤ T) (hperm : order.Perm (List.range split.length)) :
    ∃ res,
      (if (split.length : Int) < T then
        match loopover with
        | some l => some (find_best_guess size ncolors l loc_combs).comb
        | none => some (find_best_guess size ncolors loc_combs loc_combs).comb
      else
        if ((((order.filterMap (fun w =>
            (split.map (fun chunk => find_best_guess size ncolors chunk loc_combs))[w]?)).take
              T.toNat).length : Int) < T) then none
        else some (((order.filterMap (fun w =>
            (split.map (fun chunk => find_best_guess size ncolors chunk loc_combs))[w]?)).take
              T.toNat).foldl reduce_step (Comb.zero size ncolors, 0)).1) = some res
      ∧ ∀ a ∈ loopover.getD loc_combs,
          rem_count size ncolors a loc_combs ≤ rem_count size ncolors res loc_combs := by
  by_cases hlt : (split.length : Int) < T
  · rw [if_pos hlt]
    cases loopover with
    | none =>
      refine ⟨_, rfl, fun a ha => ?_⟩
      obtain ⟨h1, h2⟩ := find_best_guess_spec size ncolors loc_combs loc_combs
      exact le_trans (h1 a ha) h2
    | some l =>
      refine ⟨_, rfl, fun a ha => ?_⟩
      obtain ⟨h1, h2⟩ := find_best_guess_spec size ncolors l loc_combs
      exact le_trans (h1 a ha) h2
  · rw [if_neg hlt]
    obtain ⟨h1, h2⟩ := parallel_branch_max size ncolors T loc_combs split order
      (by omega) hperm
    rw [if_neg h1]
    refine ⟨_, rfl, fun a ha => ?_⟩
    rw [← hflat] at ha
    exact h2 a ha

/-- C10, as stated for every THREADS >= 1, fails: with THREADS the largest
`int` and the pool of three codes `pool3`, the sum `len(s) + n - 1` of
`split_slice` wraps around, the chunk size is negative, the slicing panics,
and `find_best_guess_parallel` returns no code, whatever the arrival order. -/
theorem find_best_guess_parallel_wraps :
    (1 : Int) ≤ MaxInt64 ∧ split_slice pool3 MaxInt64 = none
      ∧ ¬ ∃ (order : List Nat) (res : Comb),
          find_best_guess_parallel 2 2 MaxInt64 none pool3 order = some res := by
  have hs : split_slice pool3 MaxInt64 = none := by decide
  refine ⟨by decide, hs, ?_⟩
  rintro ⟨order, res, h⟩
  unfold find_best_guess_parallel at h
  rw [hs] at h
  exact Option.noConfusion h

/-- C10, amended: the parallel search returns a guess of maximum score. For
every THREADS >= 1 such that `len + THREADS - 1` fits in an `int` for the
guess pool (`loopover`, or `loc_combs` when `loopover` is nil) and for the
scoring pool `loc_combs`, `split_slice` splits the pool, and for every order
in which the workers' results are received, `find_best_guess_parallel`
returns a code whose score against the scoring pool is at least that of every
code of the guess pool: both as the counter `rem` that the search computes
and as the distinguished-pair count, which are the same number. -/
theorem find_best_guess_parallel_max (size ncolors : Nat) (THREADS : Int) (hT : 1 ≤ THREADS)
    (loopover : Option (List Comb)) (loc_combs : List Comb)
    (hb1 : ((loopover.getD loc_combs).length : Int) + THREADS - 1 ≤ MaxInt64)
    (hb2 : (loc_combs.length : Int) + THREADS - 1 ≤ MaxInt64) :
    ∃ split, split_slice (loopover.getD loc_combs) THREADS = some split
      ∧ ∀ order : List Nat, order.Perm (List.range split.length) →
          ∃ res, find_best_guess_parallel size ncolors THREADS loopover loc_combs order = some res
            ∧ ∀ a ∈ loopover.getD loc_combs,
                rem_count size ncolors a loc_combs ≤ rem_count size ncolors res loc_combs
                  ∧ distinguished size ncolors a loc_combs
                      ≤ distinguished size ncolors res loc_combs := by
  obtain ⟨split0, hs0, _, _, _⟩ := split_slice_spec loc_combs THREADS hT (fun _ => hb2)
  obtain ⟨split, hs, hflat, hlen, _⟩ :=
    split_slice_spec (loopover.getD loc_combs) THREADS hT (fun _ => hb1)
  refine ⟨split, hs, fun order hperm => ?_⟩
  obtain ⟨res, hres, hmax⟩ := find_best_guess_parallel_core size ncolors THREADS loopover
    loc_combs split order hflat hlen hperm
  refine ⟨res, ?_, fun a ha => ⟨hmax a ha, ?_⟩⟩
  · unfold find_best_guess_parallel
    cases loopover with
    | none =>
      simp only [Option.getD_none] at hs
      rw [hs] at hs0
      cases hs0
      simp only [hs]
      exact hres
    | some l =>
      simp only [Option.getD_some] at hs
      simp only [hs0, hs]
      exact hres
  · have h := hmax a ha
    rw [rem_count_eq_distinguished, rem_count_eq_distinguished] at h
    exact_mod_cast h

theorem find_best_guess_parallel_max_witness :
    ∃ split, split_slice ((none : Option (List Comb)).getD pool3) 2 = some split
      ∧ ∀ order : List Nat, order.Perm (List.range split.length) →
          ∃ res, find_best_guess_parallel 2 2 2 none pool3 order = some res
            ∧ ∀ a ∈ (none : Option (List Comb)).getD pool3,
                rem_count 2 2 a pool3 ≤ rem_count 2 2 res pool3
                  ∧ distinguished 2 2 a pool3 ≤ distinguished 2 2 res pool3 :=
  find_best_guess_parallel_max 2 2 2 (by decide) none pool3 (by decide) (by decide)

/-! ## First strict maximum: claim C14 -/

/-- A "first strict maximum" loop from the state `st`: either no score
exceeds the starting maximum and the state is unchanged, or the loop ends on
the earliest element whose score is the greatest. -/
theorem argmax_fold_char {α : Type} (f : α → Int) (g : α → Comb) :
    ∀ (l : List α) (st : Comb × Int),
      (l.foldl (argmax_step f g) st = st ∧ ∀ x ∈ l, f x ≤ st.2)
        ∨ ∃ pre a post, l = pre ++ a :: post ∧ (∀ x ∈ pre, f x < f a)
            ∧ (∀ x ∈ post, f x ≤ f a) ∧ st.2 < f a
            ∧ l.foldl (argmax_step f g) st = (g a, f a) := by
  intro l
  induction l with
  | nil => intro st; left; exact ⟨rfl, by simp⟩
  | cons x xs ih =>
    intro st
    rw [List.foldl_cons]
    by_cases hx : f x > st.2
    · have hs : argmax_step f g st x = (g x, f x) := by simp [argmax_step, hx]
      rw [hs]
      right
      rcases ih (g x, f x) with ⟨h1, h2⟩ | ⟨pre, a, post, h1, h2, h3, h4, h5⟩
      · exact ⟨[], x, xs, rfl, by simp, h2, hx, h1⟩
      · refine ⟨x :: pre, a, post, by rw [h1]; rfl, ?_, h3, lt_trans hx h4, h5⟩
        intro y hy
        rcases List.mem_cons.mp hy with rfl | hy
        · exact h4
        · exact h2 y hy
    · have hs : argmax_step f g st x = st := by simp [argmax_step, hx]
      rw [hs]
      rcases ih st with ⟨h1, h2⟩ | ⟨pre, a, post, h1, h2, h3, h4, h5⟩
      · left
        refine ⟨h1, ?_⟩
        intro y hy
        rcases List.mem_cons.mp hy with rfl | hy
        · exact not_lt.mp hx
        · exact h2 y hy
      · right
        refine ⟨x :: pre, a, post, by rw [h1]; rfl, ?_, h3, h4, h5⟩
        intro y hy
        rcases List.mem_cons.mp hy with rfl | hy
        · exact lt_of_le_of_lt (not_lt.mp hx) h4
        · exact h2 y hy

theorem best_step_eq (size ncolors : Nat) (loc_combs : List Comb) :
    best_step size ncolors loc_combs
      = argmax_step (fun a => rem_count size ncolors a loc_combs) id := rfl

theorem reduce_step_eq :
    reduce_step = argmax_step (fun t : ThreadRes => t.maxrem) (fun t => t.comb) := rfl

/-- What a worker posts, exactly: the placeholder with score 0 when no code
of the chunk has a positive count, and otherwise the earliest code of the
chunk whose count is the greatest, with that count. -/
theorem find_best_guess_char (size ncolors : Nat) (chunk loc_combs : List Comb) :
    (find_best_guess size ncolors chunk loc_combs = ⟨Comb.zero size ncolors, 0⟩
        ∧ ∀ x ∈ chunk, rem_count size ncolors x loc_combs ≤ 0)
      ∨ ∃ pre a post, chunk = pre ++ a :: post
          ∧ (∀ x ∈ pre, rem_count size ncolors x loc_combs < rem_count size ncolors a loc_combs)
          ∧ (∀ x ∈ post, rem_count size ncolors x loc_combs ≤ rem_count size ncolors a loc_combs)
          ∧ 0 < rem_count size ncolors a loc_combs
          ∧ find_best_guess size ncolors chunk loc_combs
              = ⟨a, rem_count size ncolors a loc_combs⟩ := by
  unfold find_best_guess
  rw [best_step_eq]
  rcases argmax_fold_char (fun a => rem_count size ncolors a loc_combs) id chunk
    (Comb.zero size ncolors, 0) with ⟨h1, h2⟩ | ⟨pre, a, post, h1, h2, h3, h4, h5⟩
  · left
    rw [h1]
    exact ⟨rfl, h2⟩
  · right
    refine ⟨pre, a, post, h1, h2, h3, h4, ?_⟩
    rw [h5]
    rfl

/-- C14: a single worker picks the first best element of its chunk. Whenever
some code of the chunk has a positive count, `find_best_guess` posts the
earliest code of the chunk whose count is maximal (every code before it has a
smaller count, every code after it at most the same), together with that
count; when every code of the chunk has count 0, or the chunk is empty, it
posts the zero-value `Comb` with score 0. -/
theorem find_best_guess_first_best (size ncolors : Nat) (chunk loc_combs : List Comb) :
    ((∃ x ∈ chunk, 0 < rem_count size ncolors x loc_combs) →
        ∃ pre a post, chunk = pre ++ a :: post
          ∧ (∀ x ∈ pre, rem_count size ncolors x loc_combs < rem_count size ncolors a loc_combs)
          ∧ (∀ x ∈ post, rem_count size ncolors x loc_combs ≤ rem_count size ncolors a loc_combs)
          ∧ find_best_guess size ncolors chunk loc_combs
              = ⟨a, rem_count size ncolors a loc_combs⟩)
      ∧ ((∀ x ∈ chunk, rem_count size ncolors x loc_combs = 0) →
          find_best_guess size ncolors chunk loc_combs = ⟨Comb.zero size ncolors, 0⟩) := by
  rcases find_best_guess_char size ncolors chunk loc_combs with
    ⟨h1, h2⟩ | ⟨pre, a, post, h1, h2, h3, h4, h5⟩
  · refine ⟨?_, fun _ => h1⟩
    rintro ⟨x, hx, hpos⟩
    have := h2 x hx
    omega
  · refine ⟨fun _ => ⟨pre, a, post, h1, h2, h3, h5⟩, ?_⟩
    intro hall
    have := hall a (by rw [h1]; simp)
    omega

/-! ## The pair test and the grader: claim C15 -/

theorem countP_shift (q : Nat → Bool) (i : Nat) :
    ∀ n : Nat, (List.range n).countP (fun j => decide (i < j) && q j)
      = (List.range (n - 1 - i)).countP (fun c => q (c + i + 1)) := by
  intro n
  induction n with
  | zero =>
    have e : 0 - 1 - i = 0 := by omega
    rw [e]
    rfl
  | succ n ih =>
    rw [List.range_succ, List.countP_append, ih]
    by_cases hin : i < n
    · have e : n + 1 - 1 - i = (n - 1 - i) + 1 := by omega
      have e2 : n - 1 - i + i + 1 = n := by omega
      rw [e, List.range_succ, List.countP_append]
      simp [List.countP_cons, hin, e2]
    · have e : n + 1 - 1 - i = 0 := by omega
      have e2 : n - 1 - i = 0 := by omega
      rw [e, e2]
      simp [List.countP_cons, hin]

theorem sum_map_range_succ (f : Nat → Nat) (n : Nat) :
    ((List.range (n + 1)).map f).sum = ((List.range n).map f).sum + f n := by
  rw [List.range_succ, List.map_append, List.sum_append]
  simp

/-- The counter `rem` is the number of index pairs `i < j` graded
differently. -/
theorem rem_count_eq_distinguished_idx (size ncolors : Nat) (a : Comb)
    (loc_combs : List Comb) :
    rem_count size ncolors a loc_combs = (distinguished_idx size ncolors a loc_combs : Int) := by
  rw [rem_count_eq_sum]
  congr 1
  unfold distinguished_idx
  have hterm : ∀ i : Nat,
      (List.range loc_combs.length).countP (fun j =>
        decide (i < j ∧ grade size ncolors a (loc_combs.getD i (Comb.zero size ncolors))
          ≠ grade size ncolors a (loc_combs.getD j (Comb.zero size ncolors))))
      = (List.range (loc_combs.length - 1 - i)).countP (fun ci =>
          pair_counted size ncolors a
            (loc_combs.getD i (Comb.zero size ncolors))
            (loc_combs.getD (ci + i + 1) (Comb.zero size ncolors))) := by
    intro i
    rw [← countP_shift (fun j => pair_counted size ncolors a
      (loc_combs.getD i (Comb.zero size ncolors))
      (loc_combs.getD j (Comb.zero size ncolors))) i loc_combs.length]
    congr 1
    funext j
    rw [pair_counted_eq]
    simp only [Bool.decide_and]
  simp only [hterm]
  cases hl : loc_combs.length with
  | zero => rfl
  | succ n =>
    rw [sum_map_range_succ]
    simp

/-- C15: the inlined pair test of `find_best_guess` agrees with the grader.
The counter `rem` computed for a guess `a` against the pool equals the number
of index pairs `i < j` of the pool with `grade(a, P[i]) != grade(a, P[j])`,
and the `continue` is taken (the pair is not counted) exactly when
`grade(a, b) = grade(a, c)`. -/
theorem pair_test_refines_grade (size ncolors : Nat) (a : Comb) :
    (∀ loc_combs : List Comb,
        rem_count size ncolors a loc_combs = (distinguished_idx size ncolors a loc_combs : Int)
          ∧ distinguished_idx size ncolors a loc_combs = distinguished size ncolors a loc_combs)
      ∧ ∀ b c : Comb, pair_counted size ncolors a b c = false
          ↔ grade size ncolors a b = grade size ncolors a c := by
  refine ⟨fun loc_combs => ⟨rem_count_eq_distinguished_idx size ncolors a loc_combs, ?_⟩, ?_⟩
  · have h1 := rem_count_eq_distinguished_idx size ncolors a loc_combs
    have h2 := rem_count_eq_distinguished size ncolors a loc_combs
    rw [h1] at h2
    exact_mod_cast h2
  · intro b c
    have h := pair_counted_iff size ncolors a b c
    constructor
    · intro hf
      by_contra hne
      have := h.mpr hne
      rw [hf] at this
      exact Bool.false_ne_true this
    · intro heq
      cases hp : pair_counted size ncolors a b c with
      | false => rfl
      | true => exact absurd heq (h.mp hp)

/-! ## Chunks, histograms, honest histories and exact matches: claims C16 to C18 and C20 -/

/-- C16, as stated for every `n >= 1`, fails: for the list `[1, 2]` and `n`
the largest `int`, the sum `len(s) + n - 1` wraps around, the chunk size is
negative and slicing panics, so no chunks are returned. -/
theorem split_slice_wraps :
    (1 : Int) ≤ MaxInt64 ∧ split_slice [1, 2] MaxInt64 = none := by
  decide

/-- C16, amended: for every list `s` and every `n >= 1` such that
`len(s) + n - 1` fits in an `int`, `split_slice(s, n)` returns at most `n`
chunks, each non-empty, whose concatenation in order equals `s` (so the
chunks are consecutive segments of `s`); hence whenever the test
`len(split) < THREADS` of `find_best_guess_parallel` fails, the number of
chunks, one worker each, is exactly `THREADS`, the number of results the
collection loop waits for. -/
theorem split_slice_chunks {α : Type} (s : List α) (n : Int) (hn : 1 ≤ n)
    (hb : (s.length : Int) + n - 1 ≤ MaxInt64) :
    ∃ chunks, split_slice s n = some chunks
      ∧ (chunks.length : Int) ≤ n
      ∧ (∀ c ∈ chunks, c ≠ [])
      ∧ chunks.flatten = s
      ∧ (¬ (chunks.length : Int) < n → (chunks.length : Int) = n) := by
  obtain ⟨chunks, h1, h2, h3, h4⟩ := split_slice_spec s n hn (fun _ => hb)
  exact ⟨chunks, h1, h3, h4, h2, fun h => by omega⟩

theorem split_slice_chunks_witness :
    ∃ chunks, split_slice [1, 2, 3, 4, 5, 6, 7] (3 : Int) = some chunks
      ∧ (chunks.length : Int) ≤ 3
      ∧ (∀ c ∈ chunks, c ≠ [])
      ∧ chunks.flatten = [1, 2, 3, 4, 5, 6, 7]
      ∧ (¬ (chunks.length : Int) < 3 → (chunks.length : Int) = 3) :=
  split_slice_chunks [1, 2, 3, 4, 5, 6, 7] 3 (by decide) (by decide)

theorem sum_map_range_int (f : Nat → Int) (n : Nat) :
    ((List.range n).map f).sum = ∑ i in Finset.range n, f i := by
  induction n with
  | zero => simp
  | succ n ih =>
    rw [List.range_succ, List.map_append, List.sum_append, ih, Finset.sum_range_succ]
    simp

theorem mkComb_cnt_sum (ncolors : Nat) (val : List Int) (hr : InRange ncolors val) :
    (mkComb ncolors val).cnt.sum = (val.length : Int) := by
  unfold mkComb
  simp only
  rw [sum_map_range_int]
  have := sum_count_eq_length ncolors val hr
  exact_mod_cast this

theorem next_cur_length (ncolors : Nat) :
    ∀ cur : List Int, (next_cur ncolors cur).length = cur.length := by
  intro cur
  induction cur with
  | nil => rfl
  | cons d rest ih =>
    unfold next_cur
    split <;> simp [ih]

theorem gen_comb_built (size ncolors : Nat) (val : List Int) (c : Comb)
    (hl : val.length = size) (h : gen_comb ncolors val = some c) : Built size ncolors c := by
  obtain ⟨_, hv, _, _⟩ := gen_comb_some ncolors val c h
  unfold Built
  rw [hv]
  exact ⟨hl, h⟩

/-- Every code that the main loop of `gen_all_combs` appends is built by
`gen_comb` from a sequence of length SIZE. -/
theorem gen_all_combs_loop_built (size ncolors : Nat) :
    ∀ (fuel : Nat) (cur : List Int) (acc l : List Comb), cur.length = size →
      (∀ c ∈ acc, Built size ncolors c) →
      gen_all_combs_loop size ncolors fuel cur acc = some l →
      ∀ c ∈ l, Built size ncolors c := by
  intro fuel
  induction fuel with
  | zero => intro cur acc l _ _ h; simp [gen_all_combs_loop] at h
  | succ f ih =>
    intro cur acc l hcur hacc h
    rw [gen_all_combs_loop] at h
    by_cases hmax : cur = List.replicate size ((ncolors : Int) - 1)
    · simp only [hmax, ne_eq, not_true_eq_false, if_false, Option.some.injEq] at h
      rw [← h]
      exact hacc
    · simp only [hmax, ne_eq, not_false_eq_true, if_true] at h
      cases hg : gen_comb ncolors (next_cur ncolors cur) with
      | none => simp [hg] at h
      | some c0 =>
        simp only [hg] at h
        have hl : (next_cur ncolors cur).length = size := by rw [next_cur_length, hcur]
        refine ih (next_cur ncolors cur) (acc ++ [c0]) l hl ?_ h
        intro c hc
        rcases List.mem_append.mp hc with hc | hc
        · exact hacc c hc
        · simp only [List.mem_singleton] at hc
          rw [hc]
          exact gen_comb_built size ncolors _ c0 hl hg

theorem gen_all_combs_built (size ncolors fuel : Nat) (l : List Comb)
    (h : gen_all_combs size ncolors fuel = some l) : ∀ c ∈ l, Built size ncolors c := by
  unfold gen_all_combs at h
  cases hg : gen_comb ncolors (List.replicate size 0) with
  | none => simp [hg] at h
  | some c0 =>
    simp only [hg] at h
    refine gen_all_combs_loop_built size ncolors fuel _ [c0] l (by simp) ?_ h
    intro c hc
    simp only [List.mem_singleton] at hc
    rw [hc]
    exact gen_comb_built size ncolors _ c0 (by simp) hg

/-- C17: for every length-SIZE sequence `val` with all symbols in
`[0, NUM_COLORS)`, `gen_comb(val)` keeps `val` unchanged and sets `cnt[v]` to
the number of positions of `val` holding `v`, for every symbol `v`, so the
counts sum to SIZE; and every code of a list produced by `gen_all_combs` is
such a code: it is what `gen_comb` builds from its own length-SIZE sequence. -/
theorem gen_comb_histogram (size ncolors : Nat) :
    (∀ val : List Int, val.length = size → (∀ e ∈ val, 0 ≤ e ∧ e < (ncolors : Int)) →
        ∃ c, gen_comb ncolors val = some c ∧ c.val = val ∧ c.cnt.length = ncolors
          ∧ (∀ v : Nat, v < ncolors → c.cnt.getD v 0 = (val.count (v : Int) : Int))
          ∧ c.cnt.sum = (size : Int))
      ∧ ∀ (fuel : Nat) (l : List Comb), gen_all_combs size ncolors fuel = some l →
          ∀ c ∈ l, c.val.length = size ∧ (∀ e ∈ c.val, 0 ≤ e ∧ e < (ncolors : Int))
            ∧ gen_comb ncolors c.val = some c
            ∧ (∀ v : Nat, v < ncolors → c.cnt.getD v 0 = (c.val.count (v : Int) : Int))
            ∧ c.cnt.sum = (size : Int) := by
  constructor
  · intro val hl hr
    obtain ⟨c, h1, h2, h3, h4⟩ := gen_comb_spec ncolors val hr
    refine ⟨c, h1, h2, h3, fun v _ => h4 v, ?_⟩
    have e := gen_comb_eq_mkComb ncolors val hr
    rw [h1] at e
    cases e
    rw [mkComb_cnt_sum ncolors val hr, hl]
  · intro fuel l h c hc
    obtain ⟨hlen, hb⟩ := gen_all_combs_built size ncolors fuel l h c hc
    obtain ⟨hr, _, _, h4⟩ := gen_comb_some ncolors c.val c hb
    refine ⟨hlen, hr, hb, fun v _ => h4 v, ?_⟩
    have e := gen_comb_eq_mkComb ncolors c.val hr
    rw [hb] at e
    have e2 : c = mkComb ncolors c.val := Option.some.inj e
    rw [e2, mkComb_cnt_sum ncolors c.val hr]
    simp [mkComb, hlen]

theorem processHistory_honest (size ncolors : Nat) (s : Comb) (history : List GuessIter)
    (hh : ∀ h ∈ history, (h.right, h.swap) = grade size ncolors h.guess s) :
    processHistory size ncolors history s = true :=
  (processHistory_iff size ncolors history s).mpr (fun h hm => (hh h hm).symm)

theorem getGrade_auto (size ncolors : Nat) (g s : Comb) (line : List Char) (rs : Int × Int)
    (h : getGrade size ncolors g (some s) line = some rs) : rs = grade size ncolors g s := by
  unfold getGrade at h
  cases hp : print_code g.val with
  | none => simp [hp] at h
  | some letters =>
    simp only [hp] at h
    cases hr : rating (grade size ncolors g s).1 (grade size ncolors g s).2 with
    | none => simp [hr] at h
    | some r => simp only [hr, Option.some.injEq] at h; exact h.symm

/-- C18: the secret is never eliminated under honest feedback. For every
secret `s` and every history whose entries each record a guess `g` together
with `grade(g, s)` (as the auto mode records them, `getGrade` returning the
grade against the solution), `processHistory(history, s)` is true, so the
secret stays in the candidate list after filtering and the list is not
empty. -/
theorem secret_never_eliminated (size ncolors : Nat) (s : Comb) (history : List GuessIter)
    (hh : ∀ h ∈ history, (h.right, h.swap) = grade size ncolors h.guess s) :
    processHistory size ncolors history s = true
      ∧ (∀ combs : List Comb, s ∈ combs →
          s ∈ new_combs size ncolors history combs ∧ new_combs size ncolors history combs ≠ [])
      ∧ ∀ (g : Comb) (line : List Char) (rs : Int × Int),
          getGrade size ncolors g (some s) line = some rs → rs = grade size ncolors g s := by
  have hp := processHistory_honest size ncolors s history hh
  refine ⟨hp, ?_, fun g line rs h => getGrade_auto size ncolors g s line rs h⟩
  intro combs hs
  have hm : s ∈ new_combs size ncolors history combs := by
    rw [new_combs_eq_filter]
    exact List.mem_filter.mpr ⟨hs, hp⟩
  exact ⟨hm, List.ne_nil_of_mem hm⟩

theorem secret_never_eliminated_witness :
    processHistory 1 2 [⟨⟨[0], [1, 0]⟩, 0, 0⟩] ⟨[1], [0, 1]⟩ = true
      ∧ (∀ combs : List Comb, (⟨[1], [0, 1]⟩ : Comb) ∈ combs →
          (⟨[1], [0, 1]⟩ : Comb) ∈ new_combs 1 2 [⟨⟨[0], [1, 0]⟩, 0, 0⟩] combs
            ∧ new_combs 1 2 [⟨⟨[0], [1, 0]⟩, 0, 0⟩] combs ≠ [])
      ∧ ∀ (g : Comb) (line : List Char) (rs : Int × Int),
          getGrade 1 2 g (some ⟨[1], [0, 1]⟩) line = some rs → rs = grade 1 2 g ⟨[1], [0, 1]⟩ :=
  secret_never_eliminated 1 2 ⟨[1], [0, 1]⟩ [⟨⟨[0], [1, 0]⟩, 0, 0⟩] (by decide)

theorem zipMatches_le_length (va : List Int) :
    ∀ vb : List Int, zipMatches va vb ≤ va.length := by
  induction va with
  | nil => intro vb; simp [zipMatches]
  | cons x xs ih =>
    intro vb
    cases vb with
    | nil => simp [zipMatches]
    | cons y ys =>
      have := ih ys
      simp only [zipMatches, List.length_cons]
      split <;> omega

theorem zipMatches_eq_length_iff (va : List Int) :
    ∀ vb : List Int, va.length = vb.length → (zipMatches va vb = va.length ↔ va = vb) := by
  induction va with
  | nil =>
    intro vb hl
    have : vb = [] := List.length_eq_zero.mp hl.symm
    subst this
    simp [zipMatches]
  | cons x xs ih =>
    intro vb hl
    cases vb with
    | nil => simp at hl
    | cons y ys =>
      have hl2 : xs.length = ys.length := by simpa using hl
      have hle := zipMatches_le_length xs ys
      have hi := ih ys hl2
      simp only [zipMatches, List.length_cons, List.cons.injEq]
      by_cases hxy : x = y
      · simp only [hxy, if_true, true_and]
        rw [← hi]
        omega
      · simp only [hxy, if_false, false_and, iff_false]
        omega

/-- For two built codes the exact count is SIZE only for equal codes. -/
theorem grade_exact_iff (size ncolors : Nat) (a b : Comb)
    (ha : Built size ncolors a) (hb : Built size ncolors b) :
    (grade size ncolors a b).1 = (size : Int) ↔ a = b := by
  rw [grade_eq]
  simp only
  rw [posMatches_eq_zip a.val b.val size ha.1 hb.1]
  have h := zipMatches_eq_length_iff a.val b.val (by rw [ha.1, hb.1])
  rw [ha.1] at h
  constructor
  · intro hz
    have hv : a.val = b.val := h.mp (by exact_mod_cast hz)
    have e := ha.2
    rw [hv, hb.2] at e
    exact (Option.some.inj e).symm
  · intro hab
    have hv : a.val = b.val := by rw [hab]
    exact_mod_cast h.mpr hv

/-- C20: the "solved" test is exact. For every two codes `a` and `b` built by
`gen_comb` from sequences of length SIZE, the exact count of `grade(a, b)`
equals SIZE if and only if `a` and `b` have the same symbol sequence, which
for built codes is to be the same code. -/
theorem solved_test_exact (size ncolors : Nat) (va vb : List Int) (a b : Comb)
    (hla : va.length = size) (hlb : vb.length = size)
    (ha : gen_comb ncolors va = some a) (hb : gen_comb ncolors vb = some b) :
    ((grade size ncolors a b).1 = (size : Int) ↔ va = vb)
      ∧ ((grade size ncolors a b).1 = (size : Int) ↔ a = b) := by
  have hba := gen_comb_built size ncolors va a hla ha
  have hbb := gen_comb_built size ncolors vb b hlb hb
  have h := grade_exact_iff size ncolors a b hba hbb
  refine ⟨?_, h⟩
  rw [h]
  obtain ⟨_, hva, _, _⟩ := gen_comb_some ncolors va a ha
  obtain ⟨_, hvb, _, _⟩ := gen_comb_some ncolors vb b hb
  constructor
  · intro hab
    rw [← hva, ← hvb, hab]
  · intro hv
    rw [hv, hb] at ha
    exact (Option.some.inj ha).symm

theorem solved_test_exact_witness :
    ((grade 4 6 ⟨[0, 0, 1, 3], [2, 1, 0, 1, 0, 0]⟩ ⟨[0, 3, 1, 2], [1, 1, 1, 1, 0, 0]⟩).1
          = ((4 : Nat) : Int) ↔ [0, 0, 1, 3] = ([0, 3, 1, 2] : List Int))
      ∧ ((grade 4 6 ⟨[0, 0, 1, 3], [2, 1, 0, 1, 0, 0]⟩ ⟨[0, 3, 1, 2], [1, 1, 1, 1, 0, 0]⟩).1
          = ((4 : Nat) : Int)
          ↔ (⟨[0, 0, 1, 3], [2, 1, 0, 1, 0, 0]⟩ : Comb) = ⟨[0, 3, 1, 2], [1, 1, 1, 1, 0, 0]⟩) :=
  solved_test_exact 4 6 [0, 0, 1, 3] [0, 3, 1, 2] _ _ (by decide) (by decide) (by decide)
    (by decide)

/-! ## The parallel search in closed form: claims C11, C12 and C19 -/

/-- `find_best_guess_parallel` for `THREADS >= 1`, when `len + THREADS - 1`
fits in an `int` for both pools, unfolded: the pool is split, and the result
is that of the single worker or of the reduction over the collected
results. -/
theorem find_best_guess_parallel_eq (size ncolors : Nat) (T : Int) (hT : 1 ≤ T)
    (loopover : Option (List Comb)) (loc_combs : List Comb)
    (hb1 : ((loopover.getD loc_combs).length : Int) ≤ MaxInt64 →
      ((loopover.getD loc_combs).length : Int) + T - 1 ≤ MaxInt64)
    (hb2 : (loc_combs.length : Int) ≤ MaxInt64 →
      (loc_combs.length : Int) + T - 1 ≤ MaxInt64) :
    ∃ split, split_slice (loopover.getD loc_combs) T = some split
      ∧ split.flatten = loopover.getD loc_combs
      ∧ (split.length : Int) ≤ T
      ∧ ∀ order : List Nat,
          find_best_guess_parallel size ncolors T loopover loc_combs order
            = if (split.length : Int) < T then
                some (find_best_guess size ncolors (loopover.getD loc_combs) loc_combs).comb
              else if ((collected size ncolors T loc_combs split order).length : Int) < T then none
              else some ((collected size ncolors T loc_combs split order).foldl reduce_step
                (Comb.zero size ncolors, 0)).1 := by
  obtain ⟨split0, hs0, _, _, _⟩ := split_slice_spec loc_combs T hT hb2
  obtain ⟨split, hs, hflat, hlen, _⟩ := split_slice_spec (loopover.getD loc_combs) T hT hb1
  refine ⟨split, hs, hflat, hlen, fun order => ?_⟩
  unfold find_best_guess_parallel collected
  cases loopover with
  | none =>
    simp only [Option.getD_none] at hs
    rw [hs] at hs0
    cases hs0
    simp only [hs, Option.getD_none]
  | some l =>
    simp only [Option.getD_some] at hs
    simp only [hs0, hs, Option.getD_some]

theorem collected_perm_posted (size ncolors : Nat) (T : Int) (loc_combs : List Comb)
    (split : List (List Comb)) (order : List Nat) (hlen : (split.length : Int) = T)
    (hperm : order.Perm (List.range split.length)) :
    (collected size ncolors T loc_combs split order).Perm
      (split.map (fun chunk => find_best_guess size ncolors chunk loc_combs)) :=
  collected_perm (split.map (fun chunk => find_best_guess size ncolors chunk loc_combs))
    order T.toNat (by rw [List.length_map]; omega) (by rw [List.length_map]; exact hperm)

/-- The reduction over results that are the posted ones up to order returns a
best guess of the whole pool. -/
theorem reduce_bestOf (size ncolors : Nat) (loc_combs : List Comb)
    (split : List (List Comb)) (bg : List ThreadRes)
    (hp : bg.Perm (split.map (fun chunk => find_best_guess size ncolors chunk loc_combs))) :
    BestOf size ncolors split.flatten loc_combs
      (bg.foldl reduce_step (Comb.zero size ncolors, 0)).1 := by
  have hbound : ∀ a ∈ split.flatten, ∃ t ∈ bg, rem_count size ncolors a loc_combs ≤ t.maxrem := by
    intro a ha
    obtain ⟨chunk, hchunk, hac⟩ := List.mem_flatten.mp ha
    refine ⟨find_best_guess size ncolors chunk loc_combs,
      hp.mem_iff.mpr (List.mem_map.mpr ⟨chunk, hchunk, rfl⟩), ?_⟩
    exact (find_best_guess_spec size ncolors chunk loc_combs).1 a hac
  rw [reduce_step_eq]
  rcases argmax_fold_char (fun t : ThreadRes => t.maxrem) (fun t => t.comb) bg
    (Comb.zero size ncolors, 0) with ⟨h1, h2⟩ | ⟨pre, t, post, h1, h2, h3, h4, h5⟩
  · left
    rw [h1]
    refine ⟨rfl, fun a ha => ?_⟩
    obtain ⟨t, ht, hle⟩ := hbound a ha
    exact le_trans hle (h2 t ht)
  · right
    rw [h5]
    have htmem : t ∈ bg := by rw [h1]; simp
    have hmax : ∀ t2 ∈ bg, t2.maxrem ≤ t.maxrem := by
      intro t2 ht2
      rw [h1] at ht2
      rcases List.mem_append.mp ht2 with h | h
      · exact le_of_lt (h2 t2 h)
      · rcases List.mem_cons.mp h with rfl | h
        · exact le_refl _
        · exact h3 t2 h
    obtain ⟨chunk, hchunk, rfl⟩ := List.mem_map.mp (hp.mem_iff.mp htmem)
    rcases find_best_guess_char size ncolors chunk loc_combs with
      ⟨hz, _⟩ | ⟨pre2, a, post2, hc1, _, _, hc4, hc5⟩
    · rw [hz] at h4
      exact absurd h4 (lt_irrefl _)
    · rw [hc5] at hmax ⊢
      refine ⟨List.mem_flatten.mpr ⟨chunk, hchunk, by rw [hc1]; simp⟩, hc4, fun x hx => ?_⟩
      obtain ⟨t2, ht2, hle⟩ := hbound x hx
      exact le_trans hle (hmax t2 ht2)

theorem find_best_guess_bestOf (size ncolors : Nat) (pool loc_combs : List Comb) :
    BestOf size ncolors pool loc_combs (find_best_guess size ncolors pool loc_combs).comb := by
  rcases find_best_guess_char size ncolors pool loc_combs with
    ⟨hz, hall⟩ | ⟨pre, a, post, h1, h2, h3, h4, h5⟩
  · left
    rw [hz]
    exact ⟨rfl, hall⟩
  · right
    rw [h5]
    refine ⟨by rw [h1]; simp, h4, fun x hx => ?_⟩
    rw [h1] at hx
    rcases List.mem_append.mp hx with h | h
    · exact le_of_lt (h2 x h)
    · rcases List.mem_cons.mp h with rfl | h
      · exact le_refl _
      · exact h3 x h

/-- For `THREADS >= 1`, when `len + THREADS - 1` fits in an `int` for both
pools, and for every arrival order of the workers that run,
`find_best_guess_parallel` returns a best guess of the pool. -/
theorem find_best_guess_parallel_bestOf (size ncolors : Nat) (T : Int) (hT : 1 ≤ T)
    (loopover : Option (List Comb)) (loc_combs : List Comb)
    (hb1 : ((loopover.getD loc_combs).length : Int) ≤ MaxInt64 →
      ((loopover.getD loc_combs).length : Int) + T - 1 ≤ MaxInt64)
    (hb2 : (loc_combs.length : Int) ≤ MaxInt64 →
      (loc_combs.length : Int) + T - 1 ≤ MaxInt64) :
    ∃ split, split_slice (loopover.getD loc_combs) T = some split
      ∧ (split.length : Int) ≤ T
      ∧ ∀ order : List Nat,
          ((split.length : Int) = T → order.Perm (List.range split.length)) →
          ∃ res, find_best_guess_parallel size ncolors T loopover loc_combs order = some res
            ∧ BestOf size ncolors (loopover.getD loc_combs) loc_combs res := by
  obtain ⟨split, hs, hflat, hlen, heq⟩ :=
    find_best_guess_parallel_eq size ncolors T hT loopover loc_combs hb1 hb2
  refine ⟨split, hs, hlen, fun order hperm => ?_⟩
  rw [heq order]
  by_cases hlt : (split.length : Int) < T
  · rw [if_pos hlt]
    exact ⟨_, rfl, find_best_guess_bestOf size ncolors _ loc_combs⟩
  · rw [if_neg hlt]
    have hl : (split.length : Int) = T := by omega
    have hp := collected_perm_posted size ncolors T loc_combs split order hl (hperm hl)
    have hcl : ¬ ((collected size ncolors T loc_combs split order).length : Int) < T := by
      rw [hp.length_eq, List.length_map]
      omega
    rw [if_neg hcl]
    refine ⟨_, rfl, ?_⟩
    rw [← hflat]
    exact reduce_bestOf size ncolors loc_combs split _ hp

/-- Two best guesses of the same pool have the same count. -/
theorem bestOf_score (size ncolors : Nat) (pool P : List Comb) (r1 r2 : Comb)
    (h1 : BestOf size ncolors pool P r1) (h2 : BestOf size ncolors pool P r2) :
    rem_count size ncolors r1 P = rem_count size ncolors r2 P := by
  rcases h1 with ⟨e1, a1⟩ | ⟨m1, p1, a1⟩ <;> rcases h2 with ⟨e2, a2⟩ | ⟨m2, p2, a2⟩
  · rw [e1, e2]
  · have := a1 r2 m2; omega
  · have := a2 r1 m1; omega
  · have := a1 r2 m2
    have := a2 r1 m1
    omega

/-- The reduction over two orders of the same results: the same code when no
two results of greatest score carry different codes. -/
theorem reduce_perm_eq (l1 l2 : List ThreadRes) (st : Comb × Int) (hp : l1.Perm l2)
    (htie : ∀ t1 ∈ l1, ∀ t2 ∈ l1, (∀ t ∈ l1, t.maxrem ≤ t1.maxrem) →
      (∀ t ∈ l1, t.maxrem ≤ t2.maxrem) → t1.comb = t2.comb) :
    l1.foldl reduce_step st = l2.foldl reduce_step st := by
  have hmaxof : ∀ (l pre post : List ThreadRes) (t : ThreadRes), l = pre ++ t :: post →
      (∀ x ∈ pre, x.maxrem < t.maxrem) → (∀ x ∈ post, x.maxrem ≤ t.maxrem) →
      t ∈ l ∧ ∀ x ∈ l, x.maxrem ≤ t.maxrem := by
    intro l pre post t hl h2 h3
    refine ⟨by rw [hl]; simp, fun x hx => ?_⟩
    rw [hl] at hx
    rcases List.mem_append.mp hx with h | h
    · exact le_of_lt (h2 x h)
    · rcases List.mem_cons.mp h with rfl | h
      · exact le_refl _
      · exact h3 x h
  rw [reduce_step_eq]
  rcases argmax_fold_char (fun t : ThreadRes => t.maxrem) (fun t => t.comb) l1 st with
    ⟨a1, a2⟩ | ⟨pre1, t1, post1, a1, a2, a3, a4, a5⟩ <;>
  rcases argmax_fold_char (fun t : ThreadRes => t.maxrem) (fun t => t.comb) l2 st with
    ⟨b1, b2⟩ | ⟨pre2, t2, post2, b1, b2, b3, b4, b5⟩
  · rw [a1, b1]
  · obtain ⟨hm, _⟩ := hmaxof l2 pre2 post2 t2 b1 b2 b3
    have := a2 t2 (hp.mem_iff.mpr hm)
    simp only at this b4
    omega
  · obtain ⟨hm, _⟩ := hmaxof l1 pre1 post1 t1 a1 a2 a3
    have := b2 t1 (hp.mem_iff.mp hm)
    simp only at this a4
    omega
  · obtain ⟨hm1, hx1⟩ := hmaxof l1 pre1 post1 t1 a1 a2 a3
    obtain ⟨hm2, hx2⟩ := hmaxof l2 pre2 post2 t2 b1 b2 b3
    have hx2' : ∀ x ∈ l1, x.maxrem ≤ t2.maxrem := fun x hx => hx2 x (hp.mem_iff.mp hx)
    have hm2' : t2 ∈ l1 := hp.mem_iff.mpr hm2
    have e1 : t1.comb = t2.comb := htie t1 hm1 t2 hm2' hx1 hx2'
    have e2 : t1.maxrem = t2.maxrem := le_antisymm (hx2' t1 hm1) (hx1 t2 hm2')
    rw [a5, b5]
    simp only [e1, e2]

/-- C11, as stated, fails: over the two codes of length one over two
symbols (the universe for SIZE = 1, NUM_COLORS = 2) with THREADS = 2, the
pool is split into two chunks of one code each, both workers post score 1,
and the guess returned is the code of whichever result arrives first. -/
theorem parallel_order_dependence :
    gen_all_combs 1 2 2 = some pool2
      ∧ split_slice pool2 2 = some [[⟨[0], [1, 0]⟩], [⟨[1], [0, 1]⟩]]
      ∧ [0, 1].Perm (List.range 2) ∧ [1, 0].Perm (List.range 2)
      ∧ find_best_guess_parallel 1 2 2 none pool2 [0, 1] = some ⟨[0], [1, 0]⟩
      ∧ find_best_guess_parallel 1 2 2 none pool2 [1, 0] = some ⟨[1], [0, 1]⟩
      ∧ find_best_guess_parallel 1 2 2 none pool2 [0, 1]
          ≠ find_best_guess_parallel 1 2 2 none pool2 [1, 0] := by
  refine ⟨by decide, by decide, List.Perm.refl _, List.Perm.swap 0 1 [], by decide, by decide,
    by decide⟩

theorem filterMap_eq_map_of_some {α β : Type} (f : α → Option β) (g : α → β) :
    ∀ l : List α, (∀ w ∈ l, f w = some (g w)) → l.filterMap f = l.map g := by
  intro l
  induction l with
  | nil => intro _; rfl
  | cons x xs ih =>
    intro h
    rw [List.filterMap_cons, h x (List.mem_cons_self _ _), List.map_cons,
      ih (fun w hw => h w (List.mem_cons_of_mem _ hw))]

/-- When exactly `THREADS` workers run and each result is received once, the
collected results are the workers' results in arrival order. -/
theorem collected_eq_map (size ncolors : Nat) (T : Int) (loc_combs : List Comb)
    (split : List (List Comb)) (order : List Nat) (hlen : (split.length : Int) = T)
    (hperm : order.Perm (List.range split.length)) :
    collected size ncolors T loc_combs split order
      = order.map (fun w => find_best_guess size ncolors (split.getD w []) loc_combs) := by
  unfold collected
  have hmap : order.filterMap (fun w =>
        (split.map (fun chunk => find_best_guess size ncolors chunk loc_combs))[w]?)
      = order.map (fun w => find_best_guess size ncolors (split.getD w []) loc_combs) := by
    apply filterMap_eq_map_of_some
    intro w hw
    have hw2 : w < split.length := List.mem_range.mp (hperm.mem_iff.mp hw)
    rw [List.getElem?_map, List.getD_eq_getElem split [] hw2, List.getElem?_eq_getElem hw2]
    rfl
  rw [hmap]
  apply List.take_of_length_le
  rw [List.length_map, hperm.length_eq, List.length_range]
  omega

/-- C11, amended: for a fixed guess pool, scoring pool and chunk partition,
with THREADS >= 1 such that `len + THREADS - 1` fits in an `int` for both
pools, `find_best_guess_parallel` returns, whatever order the workers'
results arrive in, a code of the same score. When `THREADS` workers run, the
code returned is the one posted by the first worker, in arrival order, whose
score is the greatest (every worker received before it has a smaller score),
or the placeholder when no score is positive. Hence the same code is returned
for every arrival order whenever a single worker runs or no two chunks whose
posted score is the greatest post different codes. -/
theorem parallel_order_independence (size ncolors : Nat) (THREADS : Int) (hT : 1 ≤ THREADS)
    (loopover : Option (List Comb)) (loc_combs : List Comb)
    (hb1 : ((loopover.getD loc_combs).length : Int) + THREADS - 1 ≤ MaxInt64)
    (hb2 : (loc_combs.length : Int) + THREADS - 1 ≤ MaxInt64) :
    ∃ split, split_slice (loopover.getD loc_combs) THREADS = some split
      ∧ (∀ o1 o2 : List Nat, o1.Perm (List.range split.length) →
          o2.Perm (List.range split.length) →
          ∃ r1 r2, find_best_guess_parallel size ncolors THREADS loopover loc_combs o1 = some r1
            ∧ find_best_guess_parallel size ncolors THREADS loopover loc_combs o2 = some r2
            ∧ rem_count size ncolors r1 loc_combs = rem_count size ncolors r2 loc_combs
            ∧ (((split.length : Int) < THREADS ∨ TieFree size ncolors loc_combs split) →
                r1 = r2))
      ∧ (¬ (split.length : Int) < THREADS →
          ∀ order : List Nat, order.Perm (List.range split.length) →
            ∃ res,
              find_best_guess_parallel size ncolors THREADS loopover loc_combs order = some res
              ∧ ((res = Comb.zero size ncolors
                    ∧ ∀ w ∈ order,
                        (find_best_guess size ncolors (split.getD w []) loc_combs).maxrem ≤ 0)
                  ∨ ∃ pre w post, order = pre ++ w :: post
                      ∧ (∀ v ∈ pre,
                          (find_best_guess size ncolors (split.getD v []) loc_combs).maxrem
                            < (find_best_guess size ncolors (split.getD w []) loc_combs).maxrem)
                      ∧ (∀ v ∈ post,
                          (find_best_guess size ncolors (split.getD v []) loc_combs).maxrem
                            ≤ (find_best_guess size ncolors (split.getD w []) loc_combs).maxrem)
                      ∧ 0 < (find_best_guess size ncolors (split.getD w []) loc_combs).maxrem
                      ∧ res
                          = (find_best_guess size ncolors (split.getD w []) loc_combs).comb)) := by
  obtain ⟨split, hs, hflat, hlen, heq⟩ :=
    find_best_guess_parallel_eq size ncolors THREADS hT loopover loc_combs
      (fun _ => hb1) (fun _ => hb2)
  obtain ⟨split2, hs2, _, hbest⟩ :=
    find_best_guess_parallel_bestOf size ncolors THREADS hT loopover loc_combs
      (fun _ => hb1) (fun _ => hb2)
  rw [hs] at hs2
  cases hs2
  refine ⟨split, hs, fun o1 o2 hp1 hp2 => ?_, fun hlt order hperm => ?_⟩
  · obtain ⟨r1, hr1, hbo1⟩ := hbest o1 (fun _ => hp1)
    obtain ⟨r2, hr2, hbo2⟩ := hbest o2 (fun _ => hp2)
    refine ⟨r1, r2, hr1, hr2, bestOf_score size ncolors _ loc_combs r1 r2 hbo1 hbo2, ?_⟩
    intro hcond
    rw [heq o1] at hr1
    rw [heq o2] at hr2
    by_cases hlt : (split.length : Int) < THREADS
    · rw [if_pos hlt] at hr1 hr2
      rw [hr1] at hr2
      exact Option.some.inj hr2
    · have htie : TieFree size ncolors loc_combs split := by
        rcases hcond with h | h
        · exact absurd h hlt
        · exact h
      have hl : (split.length : Int) = THREADS := by omega
      have hc1 := collected_perm_posted size ncolors THREADS loc_combs split o1 hl hp1
      have hc2 := collected_perm_posted size ncolors THREADS loc_combs split o2 hl hp2
      have hn1 : ¬ ((collected size ncolors THREADS loc_combs split o1).length : Int)
          < THREADS := by
        rw [hc1.length_eq, List.length_map]; omega
      have hn2 : ¬ ((collected size ncolors THREADS loc_combs split o2).length : Int)
          < THREADS := by
        rw [hc2.length_eq, List.length_map]; omega
      rw [if_neg hlt, if_neg hn1] at hr1
      rw [if_neg hlt, if_neg hn2] at hr2
      have hfold := reduce_perm_eq _ _ (Comb.zero size ncolors, 0) (hc1.trans hc2.symm) (by
        intro t1 ht1 t2 ht2 hm1 hm2
        obtain ⟨c1, hc1m, rfl⟩ := List.mem_map.mp (hc1.mem_iff.mp ht1)
        obtain ⟨c2, hc2m, rfl⟩ := List.mem_map.mp (hc1.mem_iff.mp ht2)
        refine htie c1 hc1m c2 hc2m (fun c hc => ?_) (fun c hc => ?_)
        · exact hm1 _ (hc1.mem_iff.mpr (List.mem_map.mpr ⟨c, hc, rfl⟩))
        · exact hm2 _ (hc1.mem_iff.mpr (List.mem_map.mpr ⟨c, hc, rfl⟩)))
      rw [hfold] at hr1
      rw [hr1] at hr2
      exact Option.some.inj hr2
  · have hl : (split.length : Int) = THREADS := by omega
    have hc := collected_perm_posted size ncolors THREADS loc_combs split order hl hperm
    have hn : ¬ ((collected size ncolors THREADS loc_combs split order).length : Int)
        < THREADS := by
      rw [hc.length_eq, List.length_map]; omega
    rw [heq order, if_neg hlt, if_neg hn,
      collected_eq_map size ncolors THREADS loc_combs split order hl hperm, List.foldl_map]
    refine ⟨_, rfl, ?_⟩
    rcases argmax_fold_char
        (fun w => (find_best_guess size ncolors (split.getD w []) loc_combs).maxrem)
        (fun w => (find_best_guess size ncolors (split.getD w []) loc_combs).comb)
        order (Comb.zero size ncolors, 0) with ⟨h1, h2⟩ | ⟨pre, w, post, h1, h2, h3, h4, h5⟩
    · left
      refine ⟨?_, h2⟩
      have e : (fun (st : Comb × Int) (w : Nat) => reduce_step st
            (find_best_guess size ncolors (split.getD w []) loc_combs))
          = argmax_step
              (fun w => (find_best_guess size ncolors (split.getD w []) loc_combs).maxrem)
              (fun w => (find_best_guess size ncolors (split.getD w []) loc_combs).comb) := rfl
      rw [e, h1]
    · right
      refine ⟨pre, w, post, h1, h2, h3, h4, ?_⟩
      have e : (fun (st : Comb × Int) (w : Nat) => reduce_step st
            (find_best_guess size ncolors (split.getD w []) loc_combs))
          = argmax_step
              (fun w => (find_best_guess size ncolors (split.getD w []) loc_combs).maxrem)
              (fun w => (find_best_guess size ncolors (split.getD w []) loc_combs).comb) := rfl
      rw [e, h5]

theorem parallel_order_independence_witness :
    TieFree 2 2 pool3 [[⟨[0, 0], [2, 0]⟩], [⟨[1, 0], [1, 1]⟩]]
      ∧ split_slice [(⟨[0, 0], [2, 0]⟩ : Comb), ⟨[1, 0], [1, 1]⟩] 2
          = some [[⟨[0, 0], [2, 0]⟩], [⟨[1, 0], [1, 1]⟩]]
      ∧ ∃ split, split_slice ((some [(⟨[0, 0], [2, 0]⟩ : Comb), ⟨[1, 0], [1, 1]⟩]).getD pool3) 2
            = some split
          ∧ (∀ o1 o2 : List Nat, o1.Perm (List.range split.length) →
              o2.Perm (List.range split.length) →
              ∃ r1 r2,
                find_best_guess_parallel 2 2 2 (some [⟨[0, 0], [2, 0]⟩, ⟨[1, 0], [1, 1]⟩])
                    pool3 o1 = some r1
                ∧ find_best_guess_parallel 2 2 2 (some [⟨[0, 0], [2, 0]⟩, ⟨[1, 0], [1, 1]⟩])
                    pool3 o2 = some r2
                ∧ rem_count 2 2 r1 pool3 = rem_count 2 2 r2 pool3
                ∧ (((split.length : Int) < 2 ∨ TieFree 2 2 pool3 split) → r1 = r2))
          ∧ (¬ (split.length : Int) < 2 →
              ∀ order : List Nat, order.Perm (List.range split.length) →
                ∃ res,
                  find_best_guess_parallel 2 2 2 (some [⟨[0, 0], [2, 0]⟩, ⟨[1, 0], [1, 1]⟩])
                      pool3 order = some res
                  ∧ ((res = Comb.zero 2 2
                        ∧ ∀ w ∈ order,
                            (find_best_guess 2 2 (split.getD w []) pool3).maxrem ≤ 0)
                      ∨ ∃ pre w post, order = pre ++ w :: post
                          ∧ (∀ v ∈ pre,
                              (find_best_guess 2 2 (split.getD v []) pool3).maxrem
                                < (find_best_guess 2 2 (split.getD w []) pool3).maxrem)
                          ∧ (∀ v ∈ post,
                              (find_best_guess 2 2 (split.getD v []) pool3).maxrem
                                ≤ (find_best_guess 2 2 (split.getD w []) pool3).maxrem)
                          ∧ 0 < (find_best_guess 2 2 (split.getD w []) pool3).maxrem
                          ∧ res = (find_best_guess 2 2 (split.getD w []) pool3).comb)) :=
  ⟨by unfold TieFree; decide, by decide,
    parallel_order_independence 2 2 2 (by decide)
      (some [⟨[0, 0], [2, 0]⟩, ⟨[1, 0], [1, 1]⟩]) pool3 (by decide) (by decide)⟩

/-- C12: with THREADS = 1, `find_best_guess_parallel` returns exactly the
code that a single sequential `find_best_guess` run over the whole guess pool
(`loopover` if given, otherwise the candidate list) against the candidate
list posts. -/
theorem threads_one_sequential (size ncolors : Nat) (loopover : Option (List Comb))
    (loc_combs : List Comb) :
    ∃ split, split_slice (loopover.getD loc_combs) 1 = some split
      ∧ ∀ order : List Nat, order.Perm (List.range split.length) →
          find_best_guess_parallel size ncolors 1 loopover loc_combs order
            = some (find_best_guess size ncolors (loopover.getD loc_combs) loc_combs).comb := by
  obtain ⟨split, hs, hflat, hlen, heq⟩ :=
    find_best_guess_parallel_eq size ncolors 1 (le_refl _) loopover loc_combs
      (fun h => by omega) (fun h => by omega)
  refine ⟨split, hs, fun order hperm => ?_⟩
  rw [heq order]
  by_cases hlt : (split.length : Int) < 1
  · rw [if_pos hlt]
  · rw [if_neg hlt]
    have hl : split.length = 1 := by omega
    obtain ⟨chunk, rfl⟩ := List.length_eq_one.mp hl
    have hpool : chunk = loopover.getD loc_combs := by simpa using hflat
    have ho : order = [0] := by
      have hr : List.range [chunk].length = [0] := rfl
      rw [hr] at hperm
      exact List.Perm.eq_singleton hperm
    have hcol : collected size ncolors 1 loc_combs [chunk] order
        = [find_best_guess size ncolors chunk loc_combs] := by
      rw [ho]
      rfl
    rw [hcol, ← hpool]
    simp only [List.length_singleton, Nat.cast_one, lt_self_iff_false, if_false,
      List.foldl_cons, List.foldl_nil]
    congr 1
    rcases find_best_guess_char size ncolors chunk loc_combs with
      ⟨hz, _⟩ | ⟨pre, a, post, _, _, _, h4, h5⟩
    · rw [hz]
      simp [reduce_step]
    · rw [h5]
      simp [reduce_step, h4]

/-! ## Built codes and distinguished pairs -/

theorem built_spec (size ncolors : Nat) (c : Comb) (h : Built size ncolors c) :
    InRange ncolors c.val ∧ c = mkComb ncolors c.val
      ∧ ∀ i : Nat, c.cnt.getD i 0 = (c.val.count (i : Int) : Int) := by
  obtain ⟨hr, _, _, h4⟩ := gen_comb_some ncolors c.val c h.2
  have e := gen_comb_eq_mkComb ncolors c.val hr
  rw [h.2] at e
  exact ⟨hr, Option.some.inj e, h4⟩

theorem grade_self_built (size ncolors : Nat) (a : Comb) (ha : Built size ncolors a) :
    grade size ncolors a a = ((size : Int), 0) := by
  obtain ⟨hr, _, h4⟩ := built_spec size ncolors a ha
  rw [grade_eq, cnt_overlap ncolors a a a.val a.val h4 h4, posMatches_self,
    overlap_self ncolors a.val hr, ha.1]
  simp

theorem grade_built_nonneg (size ncolors : Nat) (a b : Comb)
    (ha : Built size ncolors a) (hb : Built size ncolors b) :
    0 ≤ (grade size ncolors a b).1 ∧ 0 ≤ (grade size ncolors a b).2 := by
  obtain ⟨hra, _, ha4⟩ := built_spec size ncolors a ha
  obtain ⟨_, _, hb4⟩ := built_spec size ncolors b hb
  rw [grade_eq, cnt_overlap ncolors a b a.val b.val ha4 hb4]
  have h2 := posMatches_eq_zip a.val b.val size ha.1 hb.1
  have h3 := zipMatches_le_overlap ncolors a.val b.val hra
  constructor <;> simp only <;> omega

theorem built_cnt_sum (size ncolors : Nat) (c : Comb) (h : Built size ncolors c) :
    c.cnt.sum = (size : Int) := by
  obtain ⟨hr, e, _⟩ := built_spec size ncolors c h
  have := mkComb_cnt_sum ncolors c.val hr
  rw [← e, h.1] at this
  exact this

theorem zero_cnt_sum (size ncolors : Nat) : (Comb.zero size ncolors).cnt.sum = 0 := by
  unfold Comb.zero
  simp

/-- Two pool entries graded differently give a positive distinguished-pair
count. -/
theorem distinguished_pos (size ncolors : Nat) (a : Comb) :
    ∀ (pool : List Comb) (b c : Comb), b ∈ pool → c ∈ pool →
      grade size ncolors a b ≠ grade size ncolors a c → 1 ≤ distinguished size ncolors a pool := by
  intro pool
  induction pool with
  | nil => intro b c hb; simp at hb
  | cons x rest ih =>
    intro b c hb hc hne
    rw [distinguished]
    rcases List.mem_cons.mp hb with hbx | hbr <;> rcases List.mem_cons.mp hc with hcx | hcr
    · rw [hbx, hcx] at hne
      exact absurd rfl hne
    · have : 1 ≤ rest.countP (fun c => decide (grade size ncolors a x ≠ grade size ncolors a c)) :=
        List.one_le_countP_iff.mpr ⟨c, hcr, by rw [← hbx]; simpa using hne⟩
      omega
    · have : 1 ≤ rest.countP (fun c => decide (grade size ncolors a x ≠ grade size ncolors a c)) :=
        List.one_le_countP_iff.mpr ⟨b, hbr, by rw [← hcx]; simpa using hne.symm⟩
      omega
    · have := ih b c hbr hcr hne
      omega

/-- A positive distinguished-pair count comes from two pool entries graded
differently. -/
theorem distinguished_pos_inv (size ncolors : Nat) (a : Comb) :
    ∀ pool : List Comb, 1 ≤ distinguished size ncolors a pool →
      ∃ b ∈ pool, ∃ c ∈ pool, grade size ncolors a b ≠ grade size ncolors a c := by
  intro pool
  induction pool with
  | nil => intro h; simp [distinguished] at h
  | cons x rest ih =>
    intro h
    rw [distinguished] at h
    by_cases hc : 1 ≤ rest.countP
        (fun c => decide (grade size ncolors a x ≠ grade size ncolors a c))
    · obtain ⟨c, hcm, hcp⟩ := List.one_le_countP_iff.mp hc
      exact ⟨x, List.mem_cons_self _ _, c, List.mem_cons_of_mem _ hcm, by simpa using hcp⟩
    · obtain ⟨b, hb, c, hcm, hne⟩ := ih (by omega)
      exact ⟨b, List.mem_cons_of_mem _ hb, c, List.mem_cons_of_mem _ hcm, hne⟩

/-- With two different built codes among the candidates, each of which is in
the guess pool, a best guess of the pool is a code of the pool with a
positive count. -/
theorem bestOf_two_candidates (size ncolors : Nat) (pool combs : List Comb) (b c res : Comb)
    (hbuilt : ∀ x ∈ combs, Built size ncolors x) (hb : b ∈ combs) (hc : c ∈ combs)
    (hne : b ≠ c) (hsub : ∀ x ∈ combs, x ∈ pool)
    (hbest : BestOf size ncolors pool combs res) :
    res ∈ pool ∧ 1 ≤ rem_count size ncolors res combs := by
  have hgb := grade_self_built size ncolors b (hbuilt b hb)
  have hgc : grade size ncolors b b ≠ grade size ncolors b c := by
    intro h
    rw [hgb] at h
    have := (grade_exact_iff size ncolors b c (hbuilt b hb) (hbuilt c hc)).mp
      (by rw [← h])
    exact hne this
  have hpos := distinguished_pos size ncolors b combs b c hb hc hgc
  have hrem : 1 ≤ rem_count size ncolors b combs := by
    rw [rem_count_eq_distinguished]
    exact_mod_cast hpos
  rcases hbest with ⟨_, hall⟩ | ⟨hm, _, hmax⟩
  · have := hall b (hsub b hb)
    omega
  · exact ⟨hm, le_trans hrem (hmax b (hsub b hb))⟩

/-- C19, as stated for every THREADS >= 1, fails: with THREADS the largest
`int` and the two codes of `pool2` (built, with different sequences) as
candidates and guess pool, `split_slice` wraps around and panics, and
`find_best_guess_parallel` returns no code at all. -/
theorem search_wraps :
    (1 : Int) ≤ MaxInt64
      ∧ (∀ x ∈ pool2, x.val.length = 1 ∧ gen_comb 2 x.val = some x)
      ∧ (⟨[0], [1, 0]⟩ : Comb) ∈ pool2 ∧ (⟨[1], [0, 1]⟩ : Comb) ∈ pool2
      ∧ ¬ ∃ (order : List Nat) (res : Comb),
          find_best_guess_parallel 1 2 MaxInt64 none pool2 order = some res := by
  have hs : split_slice pool2 MaxInt64 = none := by decide
  refine ⟨by decide, by decide, by decide, by decide, ?_⟩
  rintro ⟨order, res, h⟩
  unfold find_best_guess_parallel at h
  rw [hs] at h
  exact Option.noConfusion h

/-- C19, amended: the search never returns its placeholder. For THREADS >= 1
such that `len + THREADS - 1` fits in an `int` for the guess pool and for the
candidate list, if the candidate list holds two codes with different
sequences, all candidates are built by `gen_comb` from sequences of length
SIZE, and every candidate also occurs in the guess pool, then for every
arrival order `find_best_guess_parallel` returns a member of the guess pool
with score at least 1; when the pool too holds only built codes, this is not
the zero-value `Comb`, and its histogram is not all zeros. -/
theorem search_never_placeholder (size ncolors : Nat) (THREADS : Int) (hT : 1 ≤ THREADS)
    (loopover : Option (List Comb)) (combs : List Comb) (b c : Comb)
    (hb1 : ((loopover.getD combs).length : Int) + THREADS - 1 ≤ MaxInt64)
    (hb2 : (combs.length : Int) + THREADS - 1 ≤ MaxInt64)
    (hbuilt : ∀ x ∈ combs, x.val.length = size ∧ gen_comb ncolors x.val = some x)
    (hb : b ∈ combs) (hc : c ∈ combs) (hne : b.val ≠ c.val)
    (hsub : ∀ x ∈ combs, x ∈ loopover.getD combs) :
    ∃ split, split_slice (loopover.getD combs) THREADS = some split
      ∧ ∀ order : List Nat, order.Perm (List.range split.length) →
          ∃ res, find_best_guess_parallel size ncolors THREADS loopover combs order = some res
            ∧ res ∈ loopover.getD combs
            ∧ 1 ≤ rem_count size ncolors res combs
            ∧ 1 ≤ distinguished size ncolors res combs
            ∧ ((∀ x ∈ loopover.getD combs,
                  x.val.length = size ∧ gen_comb ncolors x.val = some x) →
                res ≠ Comb.zero size ncolors ∧ res.cnt ≠ List.replicate ncolors 0) := by
  obtain ⟨split, hs, _, hbest⟩ :=
    find_best_guess_parallel_bestOf size ncolors THREADS hT loopover combs
      (fun _ => hb1) (fun _ => hb2)
  refine ⟨split, hs, fun order hperm => ?_⟩
  obtain ⟨res, hres, hb2⟩ := hbest order (fun _ => hperm)
  have hbc : b ≠ c := fun h => hne (by rw [h])
  obtain ⟨hm, hrem⟩ := bestOf_two_candidates size ncolors _ combs b c res hbuilt hb hc hbc hsub hb2
  refine ⟨res, hres, hm, hrem, ?_, ?_⟩
  · rw [rem_count_eq_distinguished] at hrem
    exact_mod_cast hrem
  · intro hpool
    have hsum := built_cnt_sum size ncolors res (hpool res hm)
    have hsize : 1 ≤ size := by
      rcases Nat.eq_zero_or_pos size with h0 | h0
      · exfalso
        apply hne
        have h1 := (hbuilt b hb).1
        have h2 := (hbuilt c hc).1
        rw [h0] at h1 h2
        rw [List.length_eq_zero.mp h1, List.length_eq_zero.mp h2]
      · exact h0
    have hcnt : res.cnt ≠ List.replicate ncolors 0 := by
      intro h
      rw [h] at hsum
      simp at hsum
      omega
    refine ⟨?_, hcnt⟩
    intro h
    apply hcnt
    rw [h]
    rfl

theorem search_never_placeholder_witness :
    ∃ split, split_slice ((none : Option (List Comb)).getD pool2) 2 = some split
      ∧ ∀ order : List Nat, order.Perm (List.range split.length) →
          ∃ res, find_best_guess_parallel 1 2 2 none pool2 order = some res
            ∧ res ∈ (none : Option (List Comb)).getD pool2
            ∧ 1 ≤ rem_count 1 2 res pool2
            ∧ 1 ≤ distinguished 1 2 res pool2
            ∧ ((∀ x ∈ (none : Option (List Comb)).getD pool2,
                  x.val.length = 1 ∧ gen_comb 2 x.val = some x) →
                res ≠ Comb.zero 1 2 ∧ res.cnt ≠ List.replicate 2 0) :=
  search_never_placeholder 1 2 2 (by decide) none pool2 ⟨[0], [1, 0]⟩ ⟨[1], [0, 1]⟩
    (by decide) (by decide) (by decide) (by decide) (by decide) (by decide) (by decide)

/-! ## The solver loop: claim C13 -/

theorem getD_mem {α : Type} (l : List α) (i : Nat) (d : α) (h : i < l.length) :
    l.getD i d ∈ l := by
  rw [List.getD_eq_getElem l d h]
  exact List.getElem_mem h

/-- The guess of a round, from a non-empty list of distinct built candidates
that all occur in the universe: a built code that is a candidate or tells two
candidates apart. -/
theorem pick_guess_spec (size ncolors : Nat) (T : Int) (hT : 1 ≤ T)
    (all_combs combs : List Comb) (raw : Nat) (order : List Nat)
    (hba : (all_combs.length : Int) + T - 1 ≤ MaxInt64)
    (hbl : (combs.length : Int) + T - 1 ≤ MaxInt64)
    (horder : order.Perm (List.range T.toNat))
    (hall : ∀ x ∈ all_combs, Built size ncolors x)
    (hnd : combs.Nodup) (hsub : ∀ x ∈ combs, x ∈ all_combs) (hne : combs ≠ []) :
    ∃ guess, pick_guess size ncolors T all_combs combs raw order = some guess
      ∧ Built size ncolors guess
      ∧ (guess ∈ combs ∨ 1 ≤ distinguished size ncolors guess combs) := by
  have hlen : 0 < combs.length := List.length_pos.mpr hne
  have hbuilt : ∀ x ∈ combs, Built size ncolors x := fun x hx => hall x (hsub x hx)
  unfold pick_guess
  by_cases h1 : combs.length = 1
  · rw [if_pos h1]
    have hm := getD_mem combs 0 (Comb.zero size ncolors) hlen
    exact ⟨_, rfl, hbuilt _ hm, Or.inl hm⟩
  · rw [if_neg h1]
    have hsearch : ∀ loopover : Option (List Comb),
        ((loopover.getD combs).length : Int) + T - 1 ≤ MaxInt64 →
        (∀ x ∈ combs, x ∈ loopover.getD combs) →
        (∀ x ∈ loopover.getD combs, Built size ncolors x) →
        ∃ guess, find_best_guess_parallel size ncolors T loopover combs order = some guess
          ∧ Built size ncolors guess
          ∧ (guess ∈ combs ∨ 1 ≤ distinguished size ncolors guess combs) := by
      intro loopover hbp hin hpb
      obtain ⟨b, c, rest, hcombs⟩ : ∃ b c rest, combs = b :: c :: rest := by
        match combs, hlen, h1 with
        | [_], _, h => simp at h
        | b :: c :: rest, _, _ => exact ⟨b, c, rest, rfl⟩
      have hbc : b ≠ c := by
        rw [hcombs] at hnd
        intro h
        rw [h] at hnd
        simp at hnd
      have hb : b ∈ combs := by rw [hcombs]; simp
      have hc : c ∈ combs := by rw [hcombs]; simp
      obtain ⟨split, _, _, hbest⟩ :=
        find_best_guess_parallel_bestOf size ncolors T hT loopover combs
          (fun _ => hbp) (fun _ => hbl)
      obtain ⟨res, hres, hb2⟩ := hbest order (fun hl => by
        have e : split.length = T.toNat := by omega
        rw [e]
        exact horder)
      obtain ⟨hm, hrem⟩ :=
        bestOf_two_candidates size ncolors _ combs b c res hbuilt hb hc hbc hin hb2
      refine ⟨res, hres, hpb res hm, Or.inr ?_⟩
      rw [rem_count_eq_distinguished] at hrem
      exact_mod_cast hrem
    by_cases h2 : combs.length < LOOP_OVER_ALL_TRESHOLD
    · rw [if_pos h2]
      exact hsearch (some all_combs) hba hsub hall
    · rw [if_neg h2]
      by_cases h3 : combs.length < FULL_SEARCH_TRESHOLD
      · rw [if_pos h3]
        exact hsearch none hbl (fun x hx => hx) hbuilt
      · rw [if_neg h3]
        have hm := getD_mem combs (raw % combs.length) (Comb.zero size ncolors)
          (Nat.mod_lt _ hlen)
        exact ⟨_, rfl, hbuilt _ hm, Or.inl hm⟩

theorem print_code_built (size ncolors : Nat) (hn6 : ncolors ≤ 6) (guess : Comb)
    (hg : Built size ncolors guess) : ∃ letters, print_code guess.val = some letters := by
  obtain ⟨hr, _, _⟩ := built_spec size ncolors guess hg
  unfold print_code
  have hall : (guess.val.all (fun c =>
      decide (0 ≤ c ∧ c < (COLORS.length : Int) ∧ c < (CHARS.length : Int)))) = true := by
    rw [List.all_eq_true]
    intro e he
    have h := hr e he
    have h1 : (COLORS.length : Int) = 6 := rfl
    have h2 : (CHARS.length : Int) = 6 := rfl
    rw [h1, h2]
    simp only [decide_eq_true_eq]
    omega
  rw [if_pos hall]
  exact ⟨_, rfl⟩

/-- In auto mode `getGrade` of a built guess returns its grade against the
solution, the symbols being within the six entries of the tables. -/
theorem getGrade_built (size ncolors : Nat) (hn6 : ncolors ≤ 6) (guess solution : Comb)
    (line : List Char) (hg : Built size ncolors guess) (hs : Built size ncolors solution) :
    getGrade size ncolors guess (some solution) line
      = some (grade size ncolors guess solution) := by
  obtain ⟨h1, h2⟩ := grade_built_nonneg size ncolors guess solution hg hs
  obtain ⟨letters, hp⟩ := print_code_built size ncolors hn6 guess hg
  have hno : ¬ ((grade size ncolors guess solution).1 < 0
      ∨ (grade size ncolors guess solution).2 < 0) := by omega
  simp [getGrade, hp, rating, hno]

/-- A round that does not solve shortens the candidate list. -/
theorem new_combs_shorter (size ncolors : Nat) (history : List GuessIter) (combs : List Comb)
    (guess : Comb) (rs : Int × Int) (hg : Built size ncolors guess)
    (hrs : rs.1 ≠ (size : Int))
    (hprog : guess ∈ combs ∨ 1 ≤ distinguished size ncolors guess combs) :
    (new_combs size ncolors (history ++ [⟨guess, rs.1, rs.2⟩]) combs).length < combs.length := by
  have hlast : ∀ x : Comb, grade size ncolors guess x ≠ rs →
      processHistory size ncolors (history ++ [⟨guess, rs.1, rs.2⟩]) x ≠ true := by
    intro x hx hp
    have := (processHistory_iff size ncolors _ x).mp hp ⟨guess, rs.1, rs.2⟩ (by simp)
    exact hx this
  rw [new_combs_eq_filter]
  apply List.length_filter_lt_length_iff_exists.mpr
  rcases hprog with hm | hd
  · refine ⟨guess, hm, hlast guess ?_⟩
    rw [grade_self_built size ncolors guess hg]
    intro h
    exact hrs (by rw [← h])
  · obtain ⟨b, hb, c, hc, hne⟩ := distinguished_pos_inv size ncolors guess combs hd
    by_cases hbr : grade size ncolors guess b = rs
    · refine ⟨c, hc, hlast c ?_⟩
      intro h
      exact hne (by rw [hbr, h])
    · exact ⟨b, hb, hlast b hbr⟩

/-- The auto-graded loop, from distinct candidates of the universe that
include the solution and an honest history, with one round of fuel per
candidate: it ends with "solved", after at most as many further rounds as
there are candidates, the last guess being the solution. -/
theorem computer_guess_loop_solves (size ncolors : Nat) (hn6 : ncolors ≤ 6) (T : Int)
    (hT : 1 ≤ T) (all_combs : List Comb) (solution : Comb)
    (rnd : Nat → Nat) (orders : Nat → List Nat) (lines : Nat → List Char)
    (hba : (all_combs.length : Int) + T - 1 ≤ MaxInt64)
    (horders : ∀ k, (orders k).Perm (List.range T.toNat))
    (hall : ∀ x ∈ all_combs, Built size ncolors x) (hsol : Built size ncolors solution) :
    ∀ (fuel : Nat) (combs : List Comb) (history : List GuessIter) (attempt : Nat),
      combs.Nodup → (∀ x ∈ combs, x ∈ all_combs) → solution ∈ combs →
      (∀ h ∈ history, (h.right, h.swap) = grade size ncolors h.guess solution) →
      (combs.length : Int) + T - 1 ≤ MaxInt64 →
      combs.length ≤ fuel →
      ∃ more, computer_guess_loop size ncolors T true all_combs solution rnd orders lines
            fuel combs history attempt
          = some (true, history ++ (more ++ [⟨solution, (size : Int), 0⟩]))
        ∧ more.length + 1 ≤ combs.length
        ∧ ∀ h ∈ more, h.right ≠ (size : Int) := by
  intro fuel
  induction fuel with
  | zero =>
    intro combs history attempt _ _ hs _ _ hf
    have : 0 < combs.length := List.length_pos.mpr (List.ne_nil_of_mem hs)
    omega
  | succ f ih =>
    intro combs history attempt hnd hsub hs hh hbc hf
    have hne : combs ≠ [] := List.ne_nil_of_mem hs
    have hlen : ¬ combs.length = 0 := fun h => hne (List.length_eq_zero.mp h)
    obtain ⟨guess, hpick, hgb, hprog⟩ := pick_guess_spec size ncolors T hT all_combs combs
      (rnd attempt) (orders attempt) hba hbc (horders attempt) hall hnd hsub hne
    have hgrade := getGrade_built size ncolors hn6 guess solution (lines attempt) hgb hsol
    rw [computer_guess_loop]
    simp only [hlen, if_false, hpick, if_true, hgrade]
    by_cases hsolved : (grade size ncolors guess solution).1 = (size : Int)
    · rw [if_pos hsolved]
      have hgs : guess = solution :=
        (grade_exact_iff size ncolors guess solution hgb hsol).mp hsolved
      have hself := grade_self_built size ncolors solution hsol
      refine ⟨[], ?_, ?_, by simp⟩
      · rw [hgs, hself]
        rfl
      · have : 0 < combs.length := List.length_pos.mpr hne
        simp only [List.length_nil]
        omega
    · rw [if_neg hsolved]
      have hshort := new_combs_shorter size ncolors history combs guess
        (grade size ncolors guess solution) hgb hsolved hprog
      have hh2 : ∀ h ∈ history ++ [⟨guess, (grade size ncolors guess solution).1,
          (grade size ncolors guess solution).2⟩],
          (h.right, h.swap) = grade size ncolors h.guess solution := by
        intro h hm
        rcases List.mem_append.mp hm with hm | hm
        · exact hh h hm
        · simp only [List.mem_singleton] at hm
          rw [hm]
      have hfilter := new_combs_eq_filter size ncolors
        (history ++ [⟨guess, (grade size ncolors guess solution).1,
          (grade size ncolors guess solution).2⟩]) combs
      obtain ⟨more, hres, hml, hmr⟩ := ih
        (new_combs size ncolors (history ++ [⟨guess, (grade size ncolors guess solution).1,
          (grade size ncolors guess solution).2⟩]) combs)
        (history ++ [⟨guess, (grade size ncolors guess solution).1,
          (grade size ncolors guess solution).2⟩]) (attempt + 1)
        (by rw [hfilter]; exact hnd.filter _)
        (by
          intro x hx
          rw [hfilter] at hx
          exact hsub x (List.mem_filter.mp hx).1)
        (by
          rw [hfilter]
          exact List.mem_filter.mpr ⟨hs, processHistory_honest size ncolors solution _ hh2⟩)
        hh2 (by omega) (by omega)
      refine ⟨⟨guess, (grade size ncolors guess solution).1,
        (grade size ncolors guess solution).2⟩ :: more, ?_, ?_, ?_⟩
      · rw [hres]
        simp
      · simp only [List.length_cons]
        omega
      · intro h hm
        rcases List.mem_cons.mp hm with rfl | hm
        · exact hsolved
        · exact hmr h hm

/-- C13, as stated for every THREADS >= 1, fails: with SIZE = 1,
NUM_COLORS = 2 and THREADS the largest `int`, the first round searches over
the two candidates, `split_slice` wraps around and panics, and the solver
loop yields no result, whatever the random draws, the arrival orders and the
fuel. -/
theorem solver_wraps :
    (1 : Int) ≤ MaxInt64
      ∧ ¬ ∃ (rnd : Nat → Nat) (orders : Nat → List Nat) (lines : Nat → List Char)
          (fuel : Nat) (r : Bool × List GuessIter),
          computer_guess 1 2 MaxInt64 true 2 [1] rnd orders lines fuel = some r := by
  refine ⟨by decide, ?_⟩
  rintro ⟨rnd, orders, lines, fuel, r, h⟩
  have hgen : gen_all_combs 1 2 2 = some pool2 := by decide
  have hsol : gen_comb 2 [1] = some ⟨[1], [0, 1]⟩ := by decide
  have hs : split_slice pool2 MaxInt64 = none := by decide
  have hpick : ∀ raw order, pick_guess 1 2 MaxInt64 pool2 pool2 raw order = none := by
    intro raw order
    have h1 : ¬ pool2.length = 1 := by decide
    have h2 : pool2.length < LOOP_OVER_ALL_TRESHOLD := by decide
    unfold pick_guess
    rw [if_neg h1, if_pos h2]
    unfold find_best_guess_parallel
    rw [hs]
  unfold computer_guess at h
  simp only [hgen, hsol] at h
  cases fuel with
  | zero => simp [computer_guess_loop] at h
  | succ f =>
    rw [computer_guess_loop] at h
    have h0 : ¬ pool2.length = 0 := by decide
    simp only [h0, if_false, hpick] at h
    exact Option.noConfusion h

/-- C13, amended: for every secret in the universe, every THREADS >= 1 such
that `NUM_COLORS^SIZE + THREADS - 1` fits in an `int`, and every outcome of
the random draws and of the arrival orders of the workers' results (in the
parallel branch exactly THREADS workers post, so an arrival order is a
permutation of their indices), the auto-graded solver loop of
`computer_guess` terminates within NUM_COLORS^SIZE rounds: with that much
fuel or more it ends with "solved", never with an empty candidate list. Its
history has at most NUM_COLORS^SIZE entries, the last one is the solution
itself with feedback `(SIZE, 0)`, and no earlier entry has exact count SIZE.
NUM_COLORS ranges over 1 to 6, the number of entries of the tables `COLORS`
and `CHARS`. -/
theorem solver_terminates (size ncolors : Nat) (hn : 0 < ncolors) (hn6 : ncolors ≤ 6)
    (THREADS : Int) (hT : 1 ≤ THREADS)
    (hb : ((ncolors ^ size : Nat) : Int) + THREADS - 1 ≤ MaxInt64)
    (solution_raw : List Int) (hl : solution_raw.length = size)
    (hr : ∀ e ∈ solution_raw, 0 ≤ e ∧ e < (ncolors : Int))
    (rnd : Nat → Nat) (orders : Nat → List Nat) (lines : Nat → List Char)
    (horders : ∀ k, (orders k).Perm (List.range THREADS.toNat))
    (gen_fuel fuel : Nat) (hg : ncolors ^ size ≤ gen_fuel) (hf : ncolors ^ size ≤ fuel) :
    ∃ solution init, gen_comb ncolors solution_raw = some solution
      ∧ computer_guess size ncolors THREADS true gen_fuel solution_raw rnd orders lines fuel
          = some (true, init ++ [⟨solution, (size : Int), 0⟩])
      ∧ init.length + 1 ≤ ncolors ^ size
      ∧ ∀ h ∈ init, h.right ≠ (size : Int) := by
  have hgen := gen_all_combs_eq size ncolors hn gen_fuel hg
  have hsolc := gen_comb_eq_mkComb ncolors solution_raw hr
  have hbuilt := gen_all_combs_built size ncolors gen_fuel _ hgen
  have hsb : Built size ncolors (mkComb ncolors solution_raw) :=
    gen_comb_built size ncolors solution_raw _ hl hsolc
  have hnd : ((List.range (ncolors ^ size)).map
      (fun j => mkComb ncolors (digits ncolors size j))).Nodup := by
    apply List.Nodup.map_on _ (List.nodup_range _)
    intro x hx y hy hxy
    have hv : digits ncolors size x = digits ncolors size y := by
      have := congrArg Comb.val hxy
      simpa [mkComb] using this
    have h1 := fromDigits_digits ncolors size x (List.mem_range.mp hx)
    have h2 := fromDigits_digits ncolors size y (List.mem_range.mp hy)
    rw [hv] at h1
    omega
  have hmem : mkComb ncolors solution_raw ∈ (List.range (ncolors ^ size)).map
      (fun j => mkComb ncolors (digits ncolors size j)) := by
    apply List.mem_map.mpr
    refine ⟨fromDigits ncolors solution_raw, List.mem_range.mpr ?_, ?_⟩
    · have := fromDigits_lt ncolors solution_raw hr
      rwa [hl] at this
    · have := digits_fromDigits ncolors solution_raw hr
      rw [hl] at this
      rw [this]
  have hlenU : ((List.range (ncolors ^ size)).map
      (fun j => mkComb ncolors (digits ncolors size j))).length = ncolors ^ size := by simp
  obtain ⟨more, hres, hml, hmr⟩ := computer_guess_loop_solves size ncolors hn6 THREADS hT _
    (mkComb ncolors solution_raw) rnd orders lines (by rw [hlenU]; exact hb) horders hbuilt hsb
    fuel _ [] 1 hnd (fun x hx => hx) hmem (by simp) (by rw [hlenU]; exact hb)
    (by rw [hlenU]; exact hf)
  refine ⟨mkComb ncolors solution_raw, more, hsolc, ?_, by rw [hlenU] at hml; exact hml, hmr⟩
  unfold computer_guess
  simp only [hgen, hsolc]
  rw [hres]
  simp

theorem solver_terminates_witness :
    ∃ solution init, gen_comb 2 [1] = some solution
      ∧ computer_guess 1 2 1 true 2 [1] (fun _ => 0) (fun _ => [0]) (fun _ => []) 2
          = some (true, init ++ [⟨solution, ((1 : Nat) : Int), 0⟩])
      ∧ init.length + 1 ≤ 2 ^ 1
      ∧ ∀ h ∈ init, h.right ≠ ((1 : Nat) : Int) :=
  solver_terminates 1 2 (by decide) (by decide) 1 (by decide) (by decide) [1] (by decide)
    (by decide) (fun _ => 0) (fun _ => [0]) (fun _ => []) (fun _ => List.Perm.refl _) 2 2
    (by decide) (by decide)

end Logik
